import Mathlib

/-!
Verification of the documentation-compiler pipeline of the
`angular-best-practices` repository (build scripts under `build/src/`:
`build.ts`, `validate.ts`, `extract.ts`, `config.ts`).

The TypeScript code is shallowly embedded: JS strings become Lean `String`
(a packed `List Char`), JS arrays become `List`, JS `Map` becomes an
insertion-ordered association list, and the stable `Array.prototype.sort`
becomes `List.insertionSort` (any stable sort agrees with it pointwise for a
consistent comparator).  `localeCompare(.., 'en-US', { sensitivity: 'base' })`
is modelled as lexicographic comparison of the lower-cased character lists,
which coincides with the locale order on the ASCII titles this corpus uses.
The regular-expression tests `/a|b|c/i.test(s)` that classify example labels
are alternations of literal words, modelled as substring containment in the
lower-cased label.  `parser.ts` and `types.ts` are not part of the given
sources; record shapes follow their use sites, and where a claim depends on
parser behaviour the definition is modelled from the spec and marked so.
-/

/-! ### Character-list helpers (models of the JS string primitives used) -/

/-- Lower-casing of a string, character by character: models
`String.prototype.toLowerCase` on the ASCII data the build handles. -/
def lowerStr (s : String) : String :=
  ⟨s.data.map Char.toLower⟩

/-- Lexicographic `≤` on character lists (by code point).  Used to model the
comparator results of `localeCompare` (after lower-casing) and of the default
`Array.prototype.sort` on file names. -/
def lexLe : List Char → List Char → Bool
  | [], _ => true
  | _ :: _, [] => false
  | a :: as, b :: bs => if a = b then lexLe as bs else decide (a < b)

/-- `List.isPrefixOf` specialised to characters (decidable, structural). -/
def chPrefix (p l : List Char) : Bool := p.isPrefixOf l

/-- Substring containment: `hay` contains `pat` as a contiguous substring.
Models `String.prototype.includes` / a regex alternation branch. -/
def containsSub (hay pat : List Char) : Bool :=
  hay.tails.any (fun t => chPrefix pat t)

/-- Models `/w1|w2|…/i.test(label)` for an alternation of literal lower-case
words: the lower-cased label contains some word of the list. -/
def testWords (words : List String) (s : String) : Bool :=
  words.any (fun w => containsSub (lowerStr s).data w.data)

/-- JS whitespace test for the characters `trim` removes (ASCII cases). -/
def isWsp (c : Char) : Bool := c.isWhitespace

/-- Models `String.prototype.trim` on the character list. -/
def trimChars (l : List Char) : List Char :=
  ((l.dropWhile isWsp).reverse.dropWhile isWsp).reverse

/-- A string is blank when `trim` leaves nothing; `!s?.trim()` in JS is true
exactly for an absent, empty or whitespace-only string. -/
def strBlank (s : String) : Bool := trimChars s.data = []

/-- Models `String.prototype.endsWith`. -/
def sEndsWith (s suffix : String) : Bool := suffix.data.isSuffixOf s.data

/-- Models `String.prototype.startsWith`. -/
def sStartsWith (s p : String) : Bool := chPrefix p.data s.data

/-- Models `String.prototype.replace(pat, '')` with a plain-string pattern:
only the first occurrence of `pat` is removed. -/
def replaceFirstCh : List Char → List Char → List Char
  | [], _ => []
  | c :: rest, pat =>
    if chPrefix pat (c :: rest) then (c :: rest).drop pat.length
    else c :: replaceFirstCh rest pat

/-- `file.replace('.md', '')` from `extract.ts`. -/
def replaceFirst (s pat : String) : String := ⟨replaceFirstCh s.data pat.data⟩

/-- Models `${x}` interpolation of a JS value that may be `undefined` (an
unassigned optional field): `undefined` prints as `"undefined"`. -/
def jsShow : Option String → String
  | some s => s
  | none => "undefined"

/-- Models `o || fb` for a possibly-absent JS string: `undefined` and `""`
are falsy. -/
def jsOr : Option String → String → String
  | some s, fb => if s = "" then fb else s
  | none, fb => fb

/-- Models `s || fb` for a present JS string (`""` is falsy). -/
def strOr (s fb : String) : String := if s = "" then fb else s

/-- Concatenation of a list of strings, as the `forEach (md += …)`
accumulation pattern of `build.ts` produces it. -/
def strConcat : List String → String
  | [] => ""
  | s :: rest => s ++ strConcat rest

/-- Models `Array.prototype.join(sep)`. -/
def joinSep (sep : String) : List String → String
  | [] => ""
  | [s] => s
  | s :: rest => s ++ sep ++ joinSep sep rest

/-! ### Data model (record shapes of `types.ts`, as used by the scripts)

Optional JS string fields that are only ever used through truthiness tests
(`code?.trim()`, `description ? … : …`, `language || 'typescript'`,
`additionalText`, `impactDescription`) are modelled as `String`, with `""`
standing for an absent value — the two are indistinguishable at every use
site.  `id`/`subsection` are genuinely absent before assembly and are
modelled as `Option`. -/

structure RuleExample where
  label : String
  description : String
  code : String
  language : String
  additionalText : String
deriving DecidableEq, Repr

structure Rule where
  title : String
  impact : String
  impactDescription : String
  explanation : String
  examples : List RuleExample
  references : List String
  id : Option String := none
  subsection : Option Nat := none
deriving DecidableEq, Repr

/-- What `parseRuleFile` yields for one file: the section number declared by
the file plus the parsed rule (`parser.ts` result shape). -/
structure RuleFile where
  «section» : Nat
  rule : Rule
deriving DecidableEq, Repr

structure SectionMeta where
  title : String
  impact : String
  introduction : String
deriving DecidableEq, Repr

structure Section where
  number : Nat
  title : String
  impact : String
  introduction : String
  rules : List Rule
deriving DecidableEq, Repr

structure TestCase where
  ruleId : String
  ruleTitle : String
  type : String
  code : String
  language : String
  description : String
deriving DecidableEq, Repr

/-- A directory entry as the batch scripts see it: the file name returned by
`readdir` together with the outcome `parseRuleFile` would produce for it
(`.error` models a thrown parse error). -/
structure DirEntry where
  name : String
  parsed : Except String RuleFile

/-- A directory listing (in `readdir` order). -/
abbrev Directory := List DirEntry

/-! ### `validate.ts` -/

structure ValidationError where
  file : String
  source : String
  message : String
deriving DecidableEq, Repr

/-- `validImpacts` from `validate.ts`. -/
def validImpacts : List String :=
  ["CRITICAL", "HIGH", "MEDIUM-HIGH", "MEDIUM", "LOW-MEDIUM", "LOW"]

/-- `/incorrect|wrong|bad/i.test(e.label)` from `validateRule`. -/
def vBadTest (label : String) : Bool :=
  testWords ["incorrect", "wrong", "bad"] label

/-- `/correct|good|usage|example|implementation/i.test(e.label)` from
`validateRule`. -/
def vGoodTest (label : String) : Bool :=
  testWords ["correct", "good", "usage", "example", "implementation"] label

/-- `validateRule` from `validate.ts`, lines 172-207: the per-rule
structural checklist, accumulating every violation. -/
def validateRule (rule : Rule) (file source : String) : List ValidationError :=
  let e1 := if strBlank rule.title then
    [⟨file, source, "Missing or empty title"⟩] else []
  let e2 := if strBlank rule.explanation then
    [⟨file, source, "Missing or empty explanation"⟩] else []
  let e3 :=
    if rule.examples.length = 0 then
      [⟨file, source, "Missing examples"⟩]
    else
      let codeExamples := rule.examples.filter (fun e => !(strBlank e.code))
      let hasBad := codeExamples.any (fun e => vBadTest e.label)
      let hasGood := codeExamples.any (fun e => vGoodTest e.label)
      if codeExamples.length = 0 then
        [⟨file, source, "Missing code examples"⟩]
      else if !hasBad && !hasGood then
        [⟨file, source, "Missing bad/incorrect or good/correct examples"⟩]
      else []
  let e4 := if !(validImpacts.contains rule.impact) then
    [⟨file, source, "Invalid impact: " ++ rule.impact⟩] else []
  e1 ++ e2 ++ e3 ++ e4

/-- The rule-file selection of `validateDir`:
`files.filter(f => f.endsWith('.md') && !f.startsWith('_'))`. -/
def validateSelect (f : String) : Bool :=
  sEndsWith f ".md" && !(sStartsWith f "_")

/-- `validateDir` from `validate.ts`: every selected file is processed; a
parse failure is recorded as an error and the batch continues. -/
def validateDir (dir : Directory) («source» : String) :
    List ValidationError × Nat :=
  let ruleFiles := dir.filter (fun en => validateSelect en.name)
  let errors := ruleFiles.flatMap (fun en =>
    match en.parsed with
    | .ok rf => validateRule rf.rule en.name «source»
    | .error msg => [⟨en.name, «source», "Parse error: " ++ msg⟩])
  (errors, ruleFiles.length)

/-- `validate` from `validate.ts`: shared directory first, then every
configured version; all errors are aggregated before reporting. -/
def validateAll (shared : Directory) (versions : List (String × Directory)) :
    List ValidationError × Nat :=
  let s := validateDir shared "shared"
  versions.foldl
    (fun acc v =>
      let r := validateDir v.2 v.1
      (acc.1 ++ r.1, acc.2 + r.2))
    s

/-- The process exit code of `validate`: `process.exit(1)` when any error
was collected, implicit success otherwise. -/
def validateExitCode (shared : Directory)
    (versions : List (String × Directory)) : Nat :=
  if (validateAll shared versions).1.length > 0 then 1 else 0

/-! ### `extract.ts` -/

/-- `/incorrect|bad|wrong/.test(labelLower)` from `extract.ts` (the label is
lower-cased first, so the effect is the case-insensitive test). -/
def eBadTest (label : String) : Bool :=
  testWords ["incorrect", "bad", "wrong"] label

/-- `/correct|good|example|usage/.test(labelLower)` from `extract.ts`. -/
def eGoodTest (label : String) : Bool :=
  testWords ["correct", "good", "example", "usage"] label

/-- The body of the example loop of `extractFromDir` (`extract.ts`,
lines 23-45): skip blank code, classify the label — the `bad` pattern is
tested first — and build the `TestCase`. -/
def extractExample (rule : Rule) (file : String) (e : RuleExample) :
    Option TestCase :=
  if strBlank e.code then none
  else
    let type : Option String :=
      if eBadTest e.label then some "bad"
      else if eGoodTest e.label then some "good"
      else none
    match type with
    | none => none
    | some t => some
        { ruleId := jsOr rule.id (replaceFirst file ".md")
          ruleTitle := rule.title
          type := t
          code := e.code
          language := strOr e.language "typescript"
          description := e.description }

/-- The per-file part of `extractFromDir`: all examples of the parsed rule,
in order; a parse failure skips the file. -/
def extractFile (en : DirEntry) : List TestCase :=
  match en.parsed with
  | .error _ => []
  | .ok rf => rf.rule.examples.filterMap (extractExample rf.rule en.name)

/-- The rule-file selection of `extractFromDir`:
`files.filter(f => f.endsWith('.md') && !f.startsWith('_'))`. -/
def extractSelect (f : String) : Bool :=
  sEndsWith f ".md" && !(sStartsWith f "_")

/-- `extractFromDir` from `extract.ts`. -/
def extractFromDir (dir : Directory) : List TestCase :=
  (dir.filter (fun en => extractSelect en.name)).flatMap extractFile

/-! ### `config.ts` and the `build` entry point (`build.ts`) -/

/-- The keys of the `VERSIONS` record in `config.ts`. -/
def versionKeys : List String := ["v20+", "legacy"]

/-- The outcome of `build()` (`build.ts`, lines 245-261), abstracted to its
control flow: the processed version list is either the single requested key
or every configured key; the first unknown key aborts the run with the list
of valid keys before any version is built.  `.ok` carries the version keys
built, in order. -/
def buildLoop : List String → Except (String × List String) (List String)
  | [] => .ok []
  | v :: vs =>
    if versionKeys.contains v then
      match buildLoop vs with
      | .ok built => .ok (v :: built)
      | .error e => .error e
    else .error (v, versionKeys)

def runBuild (targetVersion : Option String) :
    Except (String × List String) (List String) :=
  let versions := match targetVersion with
    | some t => [t]
    | none => versionKeys
  buildLoop versions

/-- The process exit code of `build` for the unknown-variant check. -/
def buildExitCode (targetVersion : Option String) : Nat :=
  match runBuild targetVersion with
  | .ok _ => 0
  | .error _ => 1

/-! ### `build.ts`: loading, merging, assembling -/

/-- The rule-file selection of `readRulesFromDir` (`build.ts`, line 28):
unlike the validate/extract paths it also excludes `README.md`, and the
surviving names are sorted (`.sort()`, default string order). -/
def compileSelect (f : String) : Bool :=
  sEndsWith f ".md" && !(sStartsWith f "_") && !(f = "README.md")

/-- The file-name order of the default `Array.prototype.sort`. -/
def nameLe (a b : DirEntry) : Prop := lexLe a.name.data b.name.data = true

instance : DecidableRel nameLe := fun a b => by
  unfold nameLe; infer_instance

/-- `readRulesFromDir` from `build.ts`: select, sort, parse each file,
skipping files whose parse throws. -/
def readRulesFromDir (dir : Directory) : List RuleFile :=
  let ruleFiles :=
    (dir.filter (fun en => compileSelect en.name)).insertionSort nameLe
  ruleFiles.filterMap (fun en =>
    match en.parsed with
    | .ok rf => some rf
    | .error _ => none)

/-- The ordered association list modelling a JS `Map`: `set` overwrites in
place or appends a new key at the end. -/
def mapSet {β : Type} : List (Nat × β) → Nat → β → List (Nat × β)
  | [], k, v => [(k, v)]
  | (k', v') :: rest, k, v =>
    if k' = k then (k, v) :: rest else (k', v') :: mapSet rest k v

/-- `new Map(entries)`: replay `set` over the entry list. -/
def jsMapOfList {β : Type} (l : List (Nat × β)) : List (Nat × β) :=
  l.foldl (fun m kv => mapSet m kv.1 kv.2) []

/-- `Map.prototype.get`. -/
def mapGet {β : Type} : List (Nat × β) → Nat → Option β
  | [], _ => none
  | (k', v) :: rest, k => if k' = k then some v else mapGet rest k

/-- The rule merge of `buildVersion` (`build.ts`, line 181):
`[...sharedRules, ...versionRules]`. -/
def mergeRules (sharedRules versionRules : List RuleFile) : List RuleFile :=
  sharedRules ++ versionRules

/-- The metadata merge of `buildVersion` (`build.ts`, line 186):
`new Map([...sharedSections, ...versionSections])`. -/
def mergeMeta (sharedSections versionSections : List (Nat × SectionMeta)) :
    List (Nat × SectionMeta) :=
  jsMapOfList (sharedSections ++ versionSections)

/-- The section record created on first encounter of a section number
(`build.ts`, lines 191-200): metadata entry if present, otherwise the
synthesized default using the first rule's impact. -/
def mkSection (meta : List (Nat × SectionMeta)) (sec : Nat) (rule : Rule) :
    Section :=
  match mapGet meta sec with
  | some m => ⟨sec, m.title, m.impact, m.introduction, []⟩
  | none => ⟨sec, "Section " ++ Nat.repr sec, rule.impact, "", []⟩

/-- One step of the grouping loop: push the rule onto its section, creating
the section at the end of the map (JS `Map` insertion order) when new. -/
def insertRule (meta : List (Nat × SectionMeta)) :
    List Section → Nat → Rule → List Section
  | [], sec, r => [{ mkSection meta sec r with rules := [r] }]
  | s :: ss, sec, r =>
    if s.number = sec then { s with rules := s.rules ++ [r] } :: ss
    else s :: insertRule meta ss sec r

/-- The `allRules.forEach` grouping loop of `buildVersion` (`build.ts`,
lines 189-202). -/
def groupRules (allRules : List RuleFile) (meta : List (Nat × SectionMeta)) :
    List Section :=
  allRules.foldl (fun acc rf => insertRule meta acc rf.section rf.rule) []

/-- The comparator of `section.rules.sort((a, b) =>
a.title.localeCompare(b.title, 'en-US', { sensitivity: 'base' }))`:
case-insensitive title order. -/
def titleLe (a b : Rule) : Prop :=
  lexLe (lowerStr a.title).data (lowerStr b.title).data = true

instance : DecidableRel titleLe := fun a b => by
  unfold titleLe; infer_instance

/-- `` `${section.number}.${index + 1}` `` — the dotted canonical id. -/
def encodeId (sec k : Nat) : String := Nat.repr sec ++ "." ++ Nat.repr k

/-- The id-assignment loop (`build.ts`, lines 207-210), with `i` the
1-based position in the sorted order. -/
def assignNums (sec : Nat) : Nat → List Rule → List Rule
  | _, [] => []
  | i, r :: rs =>
    { r with id := some (encodeId sec i), subsection := some i } ::
      assignNums sec (i + 1) rs

/-- The per-section sort-and-assign step of `buildVersion` (`build.ts`,
lines 205-211). -/
def sortAssign (s : Section) : Section :=
  { s with rules := assignNums s.number 1 (s.rules.insertionSort titleLe) }

/-- The comparator of `.sort((a, b) => a.number - b.number)`. -/
def numberLe (a b : Section) : Prop := a.number ≤ b.number

instance : DecidableRel numberLe := fun a b => by
  unfold numberLe; infer_instance

/-- The whole `SectionAssembler` of `buildVersion` (`build.ts`,
lines 189-213): group, sort each section's rules and assign ids, then sort
the sections by number. -/
def buildSections (allRules : List RuleFile)
    (meta : List (Nat × SectionMeta)) : List Section :=
  ((groupRules allRules meta).map sortAssign).insertionSort numberLe

/-! ### Order facts for the comparators -/

theorem lexLe_trans : ∀ {a b c : List Char},
    lexLe a b = true → lexLe b c = true → lexLe a c = true
  | [], _, _, _, _ => rfl
  | _ :: _, [], _, h, _ => by simp [lexLe] at h
  | _ :: _, _ :: _, [], _, h => by simp [lexLe] at h
  | x :: xs, y :: ys, z :: zs, h₁, h₂ => by
    simp only [lexLe] at h₁ h₂ ⊢
    by_cases hxy : x = y
    · subst hxy
      rw [if_pos rfl] at h₁
      by_cases hxz : x = z
      · subst hxz
        rw [if_pos rfl] at h₂ ⊢
        exact lexLe_trans h₁ h₂
      · rw [if_neg hxz] at h₂ ⊢
        exact h₂
    · rw [if_neg hxy] at h₁
      by_cases hyz : y = z
      · subst hyz
        rw [if_neg hxy]
        exact h₁
      · rw [if_neg hyz] at h₂
        have hxz : x < z :=
          lt_trans (of_decide_eq_true h₁) (of_decide_eq_true h₂)
        rw [if_neg (ne_of_lt hxz)]
        exact decide_eq_true hxz

theorem lexLe_total : ∀ (a b : List Char),
    lexLe a b = true ∨ lexLe b a = true
  | [], _ => .inl rfl
  | _ :: _, [] => .inr rfl
  | x :: xs, y :: ys => by
    by_cases hxy : x = y
    · subst hxy
      simpa [lexLe] using lexLe_total xs ys
    · rcases lt_or_gt_of_ne hxy with h | h
      · exact .inl (by simp [lexLe, hxy, h])
      · exact .inr (by simp [lexLe, Ne.symm hxy, h])

instance : IsTrans Rule titleLe :=
  ⟨fun _ _ _ h₁ h₂ => lexLe_trans h₁ h₂⟩

instance : IsTotal Rule titleLe :=
  ⟨fun a b => lexLe_total (lowerStr a.title).data (lowerStr b.title).data⟩

instance : IsTrans Section numberLe :=
  ⟨fun _ _ _ h₁ h₂ => Nat.le_trans h₁ h₂⟩

instance : IsTotal Section numberLe :=
  ⟨fun a b => Nat.le_total a.number b.number⟩

instance : IsTrans DirEntry nameLe :=
  ⟨fun _ _ _ h₁ h₂ => lexLe_trans h₁ h₂⟩

instance : IsTotal DirEntry nameLe :=
  ⟨fun a b => lexLe_total a.name.data b.name.data⟩

/-! ### `build.ts`: the document renderer (`generateMarkdown`, lines 83-165) -/

/-- The document-level metadata object (`metadata.json` shape).  A missing
`references` array behaves like an empty one at its only use site
(`metadata.references?.length`). -/
structure DocMeta where
  version : String
  organization : String
  date : String
  abstract : String
  angularVersion : String
  references : List String
deriving DecidableEq, Repr

/-- `replace(/\s+/g, '-')`: every maximal whitespace run becomes one `-`.
The flag records whether the previous character was part of a run. -/
def wsDash : Bool → List Char → List Char
  | _, [] => []
  | prevWs, c :: rest =>
    if isWsp c then
      if prevWs then wsDash true rest else '-' :: wsDash true rest
    else c :: wsDash false rest

/-- A character kept by `replace(/[^\w-]/g, '')` (`\w` is `[A-Za-z0-9_]`). -/
def anchorKeep (c : Char) : Bool :=
  (('a' ≤ c && c ≤ 'z') || ('A' ≤ c && c ≤ 'Z') || ('0' ≤ c && c ≤ '9'))
    || c = '_' || c = '-'

/-- The section anchor of the table of contents (`build.ts`, line 109). -/
def sectionAnchor (s : Section) : String :=
  Nat.repr s.number ++ "-" ++
    ⟨(wsDash false (lowerStr s.title).data).filter (fun c => !(c = '&'))⟩

/-- The rule anchor of the table of contents (`build.ts`, lines 112-115). -/
def ruleAnchor (r : Rule) : String :=
  ⟨(wsDash false (lowerStr (jsShow r.id ++ " " ++ r.title)).data).filter
      anchorKeep⟩

/-- One table-of-contents block: the section entry plus its rule entries
(`build.ts`, lines 108-118). -/
def tocSectionMd (s : Section) : String :=
  Nat.repr s.number ++ ". [" ++ s.title ++ "](#" ++ sectionAnchor s ++
    ") — **" ++ s.impact ++ "**\n" ++
  strConcat (s.rules.map (fun r =>
    "   - " ++ jsShow r.id ++ " [" ++ r.title ++ "](#" ++ ruleAnchor r ++
      ")\n"))

/-- One rendered example (`build.ts`, lines 135-147). -/
def exampleMd (e : RuleExample) : String :=
  (if e.description = "" then "**" ++ e.label ++ ":**\n\n"
   else "**" ++ e.label ++ " (" ++ e.description ++ "):**\n\n") ++
  (if strBlank e.code then ""
   else "```" ++ strOr e.language "typescript" ++ "\n" ++ e.code ++
     "\n```\n\n") ++
  (if e.additionalText = "" then "" else e.additionalText ++ "\n\n")

/-- One rendered rule (`build.ts`, lines 130-152). -/
def ruleMd (r : Rule) : String :=
  "### " ++ jsShow r.id ++ " " ++ r.title ++ "\n\n" ++
  "**Impact: " ++ r.impact ++
    (if r.impactDescription = "" then ""
     else " (" ++ r.impactDescription ++ ")") ++ "**\n\n" ++
  r.explanation ++ "\n\n" ++
  strConcat (r.examples.map exampleMd) ++
  (if r.references.length = 0 then ""
   else "Reference: " ++
     joinSep ", " (r.references.map (fun ref => "[" ++ ref ++ "](" ++ ref ++ ")"))
     ++ "\n\n")

/-- One rendered section body (`build.ts`, lines 123-155). -/
def sectionMd (s : Section) : String :=
  "## " ++ Nat.repr s.number ++ ". " ++ s.title ++ "\n\n" ++
  "**Impact: " ++ s.impact ++ "**\n\n" ++
  (if s.introduction = "" then "" else s.introduction ++ "\n\n") ++
  strConcat (s.rules.map ruleMd) ++
  "---\n\n"

/-- The numbered document-level reference list (`build.ts`, lines 157-162),
`i` the zero-based index of the `forEach`. -/
def numberedRefs : Nat → List String → String
  | _, [] => ""
  | i, ref :: rest =>
    Nat.repr (i + 1) ++ ". [" ++ ref ++ "](" ++ ref ++ ")\n" ++
      numberedRefs (i + 1) rest

/-- The fixed document header through the table-of-contents heading
(`build.ts`, lines 94-105). -/
def headerMd (m : DocMeta) : String :=
  "# Angular Best Practices (" ++ m.angularVersion ++ ")\n\n" ++
  "**Version " ++ m.version ++ "**  \n" ++
  m.organization ++ "  \n" ++
  m.date ++ "\n\n" ++
  "> **Note:**  \n" ++
  "> This document is for AI agents and LLMs to follow when maintaining,  \n" ++
  "> generating, or refactoring Angular codebases. Optimized for " ++
    m.angularVersion ++ ".\n\n" ++
  "---\n\n" ++
  "## Abstract\n\n" ++
  m.abstract ++ "\n\n" ++
  "---\n\n" ++
  "## Table of Contents\n\n"

/-- `generateMarkdown` from `build.ts`: header, table of contents, section
bodies, optional reference list. -/
def generateMarkdown (sections : List Section) (m : DocMeta) : String :=
  headerMd m ++
  strConcat (sections.map tocSectionMd) ++
  "\n---\n\n" ++
  strConcat (sections.map sectionMd) ++
  (if m.references.length = 0 then ""
   else "## References\n\n" ++ numberedRefs 0 m.references)

/-! ### Heading re-extraction (the round-trip reading of the claim)

`extractHeadings` re-groups the rendered document: split into lines, keep
the rule-heading lines (`### …`), take the first token as the id and the
remainder as the title. -/

/-- Split a character list at every `'\n'` (the line decomposition of the
rendered document; always returns at least one, possibly empty, line). -/
def splitLinesCh : List Char → List (List Char)
  | [] => [[]]
  | c :: rest =>
    match splitLinesCh rest with
    | [] => [[]]
    | l :: ls => if c = '\n' then [] :: l :: ls else (c :: l) :: ls

/-- Read one rendered line back as a rule heading: the `### ` marker, then
the id up to the first space, then the title. -/
def parseHeading (line : List Char) : Option (String × String) :=
  if chPrefix "### ".data line then
    let rest := line.drop 4
    some (⟨rest.takeWhile (fun c => !(c = ' '))⟩,
          ⟨(rest.dropWhile (fun c => !(c = ' '))).drop 1⟩)
  else none

/-- Re-extract the (id, title) pairs of the rule headings of a rendered
document. -/
def extractHeadings (md : String) : List (String × String) :=
  (splitLinesCh md.data).filterMap parseHeading

/-- The (id, title) assignment carried by an assembled section list. -/
def headingPairs (sections : List Section) : List (String × String) :=
  sections.flatMap (fun s => s.rules.map (fun r => (jsShow r.id, r.title)))

/-- No newline in the string: the field occupies a single rendered line. -/
def noNl (s : String) : Prop := '\n' ∉ s.data

/-- The string does not begin with `###` (a field rendered at the start of
a line cannot fake a rule heading). -/
def notHash (s : String) : Prop := chPrefix "###".data s.data = false

/-- No line of the (possibly multi-line) field looks like a rule heading. -/
def textClean (s : String) : Prop :=
  ∀ l ∈ splitLinesCh s.data, chPrefix "### ".data l = false

/-! ### Spec-modelled parser fact (used by the extract-path claim) -/

/-- Modelled from the spec: `parser.ts` (the `RuleFileParser`) is not among
the given sources.  Per the spec's data model, `Rule.id` is "assigned
during assembly, … not present before assembly", so every parse outcome a
directory listing carries leaves `id` unset.  A listing whose parse
outcomes satisfy this is parser-faithful. -/
def parserFaithful (d : Directory) : Prop :=
  ∀ en ∈ d, ∀ rf, en.parsed = Except.ok rf → rf.rule.id = none

/-! ### The validator checklist, as the spec states it -/

/-- The structural contract of spec §4.7, stated directly: non-empty title
and explanation, a code example, a polarity-labelled code example, and a
valid impact level. -/
def checklist (r : Rule) : Prop :=
  strBlank r.title = false ∧
  strBlank r.explanation = false ∧
  (∃ e ∈ r.examples, strBlank e.code = false) ∧
  (∃ e ∈ r.examples, strBlank e.code = false ∧
    (vBadTest e.label = true ∨ vGoodTest e.label = true)) ∧
  r.impact ∈ validImpacts

/-! ### Decimal digit reading (for id round-trips) -/

/-- The numeric value of a decimal digit character. -/
def digitVal (c : Char) : Nat := c.toNat - 48

/-- Read a digit string back as a number (most significant first). -/
def digitsVal (l : List Char) : Nat :=
  l.foldl (fun acc c => acc * 10 + digitVal c) 0

/-- Heading extraction over a raw character list (`extractHeadings` is this
applied to the document's characters). -/
def headsCh (l : List Char) : List (String × String) :=
  (splitLinesCh l).filterMap parseHeading

/-- Renderer-safety of the document metadata: single-line fields carry no
newline, fields that open a rendered line do not begin with `###`, and no
line of the abstract looks like a rule heading. -/
def cleanDocMeta (m : DocMeta) : Prop :=
  '\n' ∉ m.version.data ∧ '\n' ∉ m.angularVersion.data ∧
  ('\n' ∉ m.organization.data ∧ notHash m.organization) ∧
  ('\n' ∉ m.date.data ∧ notHash m.date) ∧
  textClean m.abstract ∧
  ∀ ref ∈ m.references, '\n' ∉ ref.data

/-- Renderer-safety of one example: inline fields are single-line, and no
line of the code block or trailing prose looks like a rule heading. -/
def cleanExample (e : RuleExample) : Prop :=
  '\n' ∉ e.label.data ∧ '\n' ∉ e.description.data ∧
  '\n' ∉ e.language.data ∧ textClean e.code ∧ textClean e.additionalText

/-- Renderer-safety of one rule's text fields. -/
def cleanRule (r : Rule) : Prop :=
  '\n' ∉ r.title.data ∧ '\n' ∉ r.impact.data ∧
  '\n' ∉ r.impactDescription.data ∧ textClean r.explanation ∧
  (∀ ref ∈ r.references, '\n' ∉ ref.data) ∧
  ∀ e ∈ r.examples, cleanExample e

/-- Renderer-safety of one assembled section. -/
def cleanSection (s : Section) : Prop :=
  '\n' ∉ s.title.data ∧ '\n' ∉ s.impact.data ∧
  textClean s.introduction ∧ ∀ r ∈ s.rules, cleanRule r

instance (m : DocMeta) : Decidable (cleanDocMeta m) := by
  unfold cleanDocMeta notHash textClean
  infer_instance

instance (e : RuleExample) : Decidable (cleanExample e) := by
  unfold cleanExample textClean
  infer_instance

instance (r : Rule) : Decidable (cleanRule r) := by
  unfold cleanRule cleanExample textClean
  infer_instance

instance (s : Section) : Decidable (cleanSection s) := by
  unfold cleanSection cleanRule cleanExample textClean
  infer_instance

/-! ### View functions used to state the assembler claims -/

/-- The rules of the (first) section numbered `n` in a section list. -/
def secRules : List Section → Nat → List Rule
  | [], _ => []
  | s :: ss, n => if s.number = n then s.rules else secRules ss n

/-- Forget the assembly-assigned fields, for comparing a rule before and
after id assignment. -/
def stripAssign (r : Rule) : Rule :=
  { r with id := none, subsection := none }

/-- The input rules declaring section `n`, in input order. -/
def rulesOf (allRules : List RuleFile) (n : Nat) : List Rule :=
  (allRules.filter (fun rf => rf.section = n)).map (fun rf => rf.rule)

/-! ## Theorems -/

/-! ### JS `Map` lemmas -/

theorem mapGet_mapSet {β : Type} (m : List (Nat × β)) (k q : Nat) (v : β) :
    mapGet (mapSet m k v) q = if k = q then some v else mapGet m q := by
  induction m with
  | nil => simp [mapSet, mapGet]
  | cons kv rest ih =>
    obtain ⟨k', v'⟩ := kv
    by_cases h : k' = k
    · subst h
      show mapGet ((if k' = k' then (k', v) :: rest else
        (k', v') :: mapSet rest k' v)) q = _
      rw [if_pos rfl]
      by_cases hq : k' = q <;> simp [mapGet, hq]
    · show mapGet ((if k' = k then (k, v) :: rest else
        (k', v') :: mapSet rest k v)) q = _
      rw [if_neg h]
      by_cases hq : k' = q
      · subst hq
        have hk : ¬ k = k' := fun he => h (Eq.symm he)
        simp [mapGet, hk]
      · simp [mapGet, hq, ih]

theorem mapGet_append {β : Type} (a b : List (Nat × β)) (q : Nat) :
    mapGet (a ++ b) q = (mapGet a q).or (mapGet b q) := by
  induction a with
  | nil => simp [mapGet]
  | cons kv rest ih =>
    obtain ⟨k', v'⟩ := kv
    by_cases h : k' = q
    · simp [mapGet, h]
    · simp [mapGet, h, ih]

theorem mapGet_foldl_set {β : Type} (l : List (Nat × β))
    (acc : List (Nat × β)) (q : Nat) :
    mapGet (l.foldl (fun m kv => mapSet m kv.1 kv.2) acc) q =
      (mapGet l.reverse q).or (mapGet acc q) := by
  induction l generalizing acc with
  | nil => simp [mapGet]
  | cons kv rest ih =>
    simp only [List.foldl_cons, List.reverse_cons]
    rw [ih, mapGet_append, Option.or_assoc, mapGet_mapSet]
    congr 1
    by_cases h : kv.1 = q <;> simp [mapGet, h]

theorem mapGet_jsMapOfList {β : Type} (l : List (Nat × β)) (q : Nat) :
    mapGet (jsMapOfList l) q = mapGet l.reverse q := by
  unfold jsMapOfList
  rw [mapGet_foldl_set]
  simp [mapGet]

theorem mapGet_eq_none_of_not_mem {β : Type} {l : List (Nat × β)} {q : Nat}
    (h : q ∉ l.map Prod.fst) : mapGet l q = none := by
  induction l with
  | nil => rfl
  | cons kv rest ih =>
    obtain ⟨k, v⟩ := kv
    simp only [List.map_cons, List.mem_cons] at h
    push_neg at h
    have hk : ¬ k = q := fun he => h.1 (Eq.symm he)
    simp only [mapGet, if_neg hk]
    exact ih h.2

theorem mapGet_reverse_of_nodup {β : Type} {l : List (Nat × β)}
    (h : (l.map Prod.fst).Nodup) (q : Nat) :
    mapGet l.reverse q = mapGet l q := by
  induction l with
  | nil => rfl
  | cons kv rest ih =>
    obtain ⟨k, v⟩ := kv
    simp only [List.map_cons, List.nodup_cons] at h
    rw [List.reverse_cons, mapGet_append, ih h.2]
    by_cases hq : k = q
    · subst hq
      rw [mapGet_eq_none_of_not_mem h.1]
      simp [mapGet]
    · simp [mapGet, hq]

/-- C3: the `RuleCorpusMerger` combines rules by plain concatenation (shared
first, variant second, nothing dropped, duplicates kept) and combines
section metadata by overlay, the variant entry winning on any shared
section number — in particular for section 3. -/
theorem merger_concatenates_and_variant_metadata_wins
    (sharedRules versionRules : List RuleFile)
    (sharedSections versionSections : List (Nat × SectionMeta))
    (hs : (sharedSections.map Prod.fst).Nodup)
    (hv : (versionSections.map Prod.fst).Nodup) :
    mergeRules sharedRules versionRules = sharedRules ++ versionRules ∧
    (∀ r : RuleFile, (mergeRules sharedRules versionRules).count r =
      sharedRules.count r + versionRules.count r) ∧
    (∀ k, mapGet (mergeMeta sharedSections versionSections) k =
      (mapGet versionSections k).or (mapGet sharedSections k)) ∧
    (∀ k m, mapGet versionSections k = some m →
      mapGet (mergeMeta sharedSections versionSections) k = some m) := by
  have hmeta : ∀ k, mapGet (mergeMeta sharedSections versionSections) k =
      (mapGet versionSections k).or (mapGet sharedSections k) := by
    intro k
    unfold mergeMeta
    rw [mapGet_jsMapOfList, List.reverse_append, mapGet_append,
      mapGet_reverse_of_nodup hv, mapGet_reverse_of_nodup hs]
  refine ⟨rfl, fun r => List.count_append r _ _, hmeta, fun k m h => ?_⟩
  rw [hmeta k, h]
  rfl

/-- Witness for C3: two one-entry metadata maps that both define section 3;
the merged map returns the variant's entry. -/
theorem merger_witness :
    mapGet [(3, (⟨"B", "LOW", "ib"⟩ : SectionMeta))] 3 =
      some ⟨"B", "LOW", "ib"⟩ ∧
    mapGet (mergeMeta [(3, (⟨"A", "HIGH", "ia"⟩ : SectionMeta))]
        [(3, (⟨"B", "LOW", "ib"⟩ : SectionMeta))]) 3 =
      some ⟨"B", "LOW", "ib"⟩ :=
  ⟨by decide,
    (merger_concatenates_and_variant_metadata_wins [] []
      [(3, ⟨"A", "HIGH", "ia"⟩)] [(3, ⟨"B", "LOW", "ib"⟩)]
      (by decide) (by decide)).2.2.2 3 ⟨"B", "LOW", "ib"⟩ (by decide)⟩

/-- C5: the `ExampleExtractor` never emits a `TestCase` for an example whose
code is empty or whitespace-only, whatever its label; consequently every
emitted `TestCase` carries non-blank code. -/
theorem extractor_never_emits_blank_code :
    (∀ (r : Rule) (f : String) (e : RuleExample), strBlank e.code = true →
      extractExample r f e = none) ∧
    (∀ (d : Directory) (tc : TestCase), tc ∈ extractFromDir d →
      strBlank tc.code = false) := by
  constructor
  · intro r f e h
    simp [extractExample, h]
  · intro d tc htc
    obtain ⟨en, _, htc⟩ := List.mem_flatMap.mp htc
    unfold extractFile at htc
    cases hp : en.parsed with
    | error m => rw [hp] at htc; simp at htc
    | ok rf =>
      rw [hp] at htc
      obtain ⟨e, _, he⟩ := List.mem_filterMap.mp htc
      unfold extractExample at he
      by_cases hb : strBlank e.code
      · rw [if_pos hb] at he
        simp at he
      · rw [if_neg hb] at he
        rcases h1 : (if eBadTest e.label then some "bad"
            else if eGoodTest e.label then some "good" else none) with _ | t
        · rw [h1] at he; simp at he
        · rw [h1] at he
          simp only [Option.some.injEq] at he
          rw [← he]
          simpa using hb

/-- Witness for C5: a whitespace-only code block with a "good" label emits
nothing. -/
theorem extractor_never_emits_blank_code_witness :
    strBlank "  " = true ∧
    extractExample
      { title := "T", impact := "HIGH", impactDescription := "",
        explanation := "E", examples := [], references := [] }
      "f.md" ⟨"Good example", "", "  ", "", ""⟩ = none :=
  ⟨by decide,
    extractor_never_emits_blank_code.1
      { title := "T", impact := "HIGH", impactDescription := "",
        explanation := "E", examples := [], references := [] }
      "f.md" ⟨"Good example", "", "  ", "", ""⟩ (by decide)⟩

/-- C8: `build` invoked with a variant key outside the configured set fails
fatally — the error carries the valid keys, the exit code is non-zero and
no version is built — while every configured key builds cleanly. -/
theorem build_unknown_variant_is_fatal :
    (∀ t, t ∉ versionKeys →
      runBuild (some t) = .error (t, versionKeys) ∧
      buildExitCode (some t) = 1) ∧
    (∀ t ∈ versionKeys,
      runBuild (some t) = .ok [t] ∧ buildExitCode (some t) = 0) := by
  constructor
  · intro t ht
    refine ⟨?_, ?_⟩ <;> simp [runBuild, buildLoop, buildExitCode, ht]
  · intro t ht
    refine ⟨?_, ?_⟩ <;> simp [runBuild, buildLoop, buildExitCode, ht]

/-- Witness for C8: the unknown key `"v99"` aborts with the configured key
list; the configured key `"v20+"` does not. -/
theorem build_unknown_variant_witness :
    runBuild (some "v99") = .error ("v99", versionKeys) ∧
    buildExitCode (some "v99") = 1 ∧
    runBuild (some "v20+") = .ok ["v20+"] ∧
    buildExitCode (some "v20+") = 0 := by
  have h1 := build_unknown_variant_is_fatal.1 "v99" (by decide)
  have h2 := build_unknown_variant_is_fatal.2 "v20+" (by decide)
  exact ⟨h1.1, h1.2, h2.1, h2.2⟩

/-- C9 counterexample: on a directory containing `README.md`, the compile
loader's selection excludes it while the validate and extract selections
keep it, so the three paths do not process the same file set. -/
theorem enumeration_readme_counterexample :
    List.filter (fun f => compileSelect f) ["README.md"] = [] ∧
    List.filter (fun f => validateSelect f) ["README.md"] = ["README.md"] ∧
    List.filter (fun f => extractSelect f) ["README.md"] = ["README.md"] ∧
    readRulesFromDir [⟨"README.md", .ok ⟨1,
      { title := "T", impact := "HIGH", impactDescription := "",
        explanation := "E", examples := [], references := [] }⟩⟩] = [] ∧
    (validateDir [⟨"README.md", .ok ⟨1,
      { title := "T", impact := "HIGH", impactDescription := "",
        explanation := "E", examples := [], references := [] }⟩⟩]
      "shared").2 = 1 := by
  refine ⟨by decide, by decide, by decide, by decide, by decide⟩

/-- C9 (amended): the validate and extract paths share one enumeration
(`.md` files not starting with `_`); the compile loader uses the same
filter but additionally drops `README.md`, so its file set is the other
two paths' set minus `README.md`. -/
theorem enumeration_agreement_amended (dir : Directory) :
    dir.filter (fun en => validateSelect en.name) =
      dir.filter (fun en => extractSelect en.name) ∧
    (∀ en : DirEntry,
      en ∈ (dir.filter (fun en => compileSelect en.name)).insertionSort nameLe
        ↔
      (en ∈ dir.filter (fun en => validateSelect en.name) ∧
        en.name ≠ "README.md")) := by
  refine ⟨rfl, fun en => ?_⟩
  rw [List.mem_insertionSort]
  simp only [List.mem_filter, compileSelect, validateSelect,
    Bool.and_eq_true, Bool.not_eq_true', decide_eq_false_iff_not]
  tauto

/-- C10 counterexample: for the file name `a.mdx.md`, `extract.ts` computes
`file.replace('.md', '')`, which removes the first occurrence of `.md` and
yields `ax.md` — not the suffix-stripped name `a.mdx` the claim states. -/
theorem extract_ruleId_counterexample :
    sEndsWith "a.mdx.md" ".md" = true ∧
    (extractFromDir [⟨"a.mdx.md", .ok ⟨1,
      { title := "T", impact := "HIGH", impactDescription := "",
        explanation := "E",
        examples := [⟨"Good usage", "", "x", "", ""⟩],
        references := [] }⟩⟩]).map (fun tc => tc.ruleId) = ["ax.md"] ∧
    ("ax.md" : String) ≠ "a.mdx" := by
  refine ⟨by decide, by decide, by decide⟩

/-- C10 (amended): with the parser leaving `id` unset (spec-modelled —
`parser.ts` is not among the sources and the spec fixes `id` as assigned
only during assembly), every `TestCase` of the extract path takes the
filename fallback: its `ruleId` is the source file's name with the *first*
occurrence of `.md` removed (the suffix-stripped name whenever `.md`
occurs only as the suffix), never a dotted assembly id. -/
theorem extract_ruleId_fallback (d : Directory) (h : parserFaithful d) :
    ∀ tc ∈ extractFromDir d, ∃ en ∈ d,
      extractSelect en.name = true ∧
      tc.ruleId = replaceFirst en.name ".md" := by
  intro tc htc
  obtain ⟨en, hen, htc⟩ := List.mem_flatMap.mp htc
  have hmem := (List.mem_filter.mp hen).1
  have hsel := (List.mem_filter.mp hen).2
  refine ⟨en, hmem, hsel, ?_⟩
  unfold extractFile at htc
  cases hp : en.parsed with
  | error m => rw [hp] at htc; simp at htc
  | ok rf =>
    rw [hp] at htc
    obtain ⟨e, _, he⟩ := List.mem_filterMap.mp htc
    have hid : rf.rule.id = none := h en hmem rf hp
    unfold extractExample at he
    by_cases hb : strBlank e.code
    · rw [if_pos hb] at he
      simp at he
    · rw [if_neg hb] at he
      rcases h1 : (if eBadTest e.label then some "bad"
          else if eGoodTest e.label then some "good" else none) with _ | t
      · rw [h1] at he; simp at he
      · rw [h1] at he
        simp only [Option.some.injEq] at he
        rw [← he]
        simp [jsOr, hid]

/-- Witness for the amended C10 at the concrete listing `[a.mdx.md]`. -/
theorem extract_ruleId_fallback_witness :
    ∃ en ∈ ([⟨"a.mdx.md", .ok ⟨1,
      { title := "T", impact := "HIGH", impactDescription := "",
        explanation := "E",
        examples := [⟨"Good usage", "", "x", "", ""⟩],
        references := [] }⟩⟩] : Directory),
      extractSelect en.name = true ∧
      ({ ruleId := "ax.md", ruleTitle := "T", type := "good", code := "x",
         language := "typescript", description := "" } : TestCase).ruleId =
        replaceFirst en.name ".md" := by
  refine extract_ruleId_fallback _ ?_ _ ?_
  · intro en hen rf hrf
    simp only [List.mem_singleton] at hen
    subst hen
    simp only at hrf
    injection hrf with h
    rw [← h]
  · decide

/-- C4 counterexample: the label `Implementation` (non-blank code) passes
the validator's good-pattern check and fails its bad-pattern check, so per
the claim the extractor should emit a `good` `TestCase` — but the
extractor's good pattern lacks `implementation` and emits nothing. -/
theorem extractor_polarity_counterexample :
    vGoodTest "Implementation" = true ∧
    vBadTest "Implementation" = false ∧
    strBlank "x" = false ∧
    extractExample
      { title := "T", impact := "HIGH", impactDescription := "",
        explanation := "E", examples := [], references := [] }
      "f.md" ⟨"Implementation", "", "x", "", ""⟩ = none := by
  refine ⟨by decide, by decide, by decide, by decide⟩

/-- C4 (amended): for an example with non-blank code the extractor checks
the bad patterns first and they agree exactly with the validator's bad
check; a `good` case is emitted exactly when the bad check fails and the
extractor's own good pattern (`correct|good|example|usage` — without the
validator's `implementation`) matches; neither matching is a silent skip. -/
theorem extractor_polarity_amended (r : Rule) (f : String) (e : RuleExample)
    (hc : strBlank e.code = false) :
    (∀ l, eBadTest l = vBadTest l) ∧
    ((extractExample r f e).map (fun tc => tc.type) = some "bad" ↔
      vBadTest e.label = true) ∧
    ((extractExample r f e).map (fun tc => tc.type) = some "good" ↔
      (vBadTest e.label = false ∧ eGoodTest e.label = true)) ∧
    (extractExample r f e = none ↔
      (vBadTest e.label = false ∧ eGoodTest e.label = false)) := by
  have hbad : ∀ l, eBadTest l = vBadTest l := by
    intro l
    unfold eBadTest vBadTest testWords
    simp only [List.any_cons, List.any_nil, Bool.or_false]
    cases containsSub (lowerStr l).data "bad".data <;>
      cases containsSub (lowerStr l).data "wrong".data <;> simp
  have hnc : ¬ (strBlank e.code = true) := by simp [hc]
  refine ⟨hbad, ?_, ?_, ?_⟩ <;>
  · unfold extractExample
    rw [if_neg hnc, ← hbad e.label]
    by_cases hb : eBadTest e.label <;> by_cases hg : eGoodTest e.label <;>
      simp [hb, hg]

/-- Witness for the amended C4 at the label `Correct pattern`. -/
theorem extractor_polarity_witness :
    strBlank "x" = false ∧
    ((extractExample
        { title := "T", impact := "HIGH", impactDescription := "",
          explanation := "E", examples := [], references := [] }
        "f.md" ⟨"Correct pattern", "", "x", "", ""⟩).map
        (fun tc => tc.type) = some "good" ↔
      (vBadTest "Correct pattern" = false ∧
        eGoodTest "Correct pattern" = true)) :=
  ⟨by decide,
    (extractor_polarity_amended
      { title := "T", impact := "HIGH", impactDescription := "",
        explanation := "E", examples := [], references := [] }
      "f.md" ⟨"Correct pattern", "", "x", "", ""⟩ (by decide)).2.2.1⟩

/-- The examples block of `validateRule` is violation-free exactly when
some example has non-blank code and some non-blank-code example carries a
polarity-signalling label. -/
theorem validateRule_examples_iff (xs : List RuleExample)
    (m1 m2 m3 : ValidationError) :
    (if xs.length = 0 then [m1]
     else
       if (xs.filter (fun e => !(strBlank e.code))).length = 0 then [m2]
       else if (!((xs.filter (fun e => !(strBlank e.code))).any
                  (fun e => vBadTest e.label)) &&
                !((xs.filter (fun e => !(strBlank e.code))).any
                  (fun e => vGoodTest e.label))) then [m3]
       else []) = [] ↔
    ((∃ e ∈ xs, strBlank e.code = false) ∧
     (∃ e ∈ xs, strBlank e.code = false ∧
       (vBadTest e.label = true ∨ vGoodTest e.label = true))) := by
  by_cases hex : xs.length = 0
  · rw [if_pos hex]
    have hnil : xs = [] := List.length_eq_zero.mp hex
    subst hnil
    simp
  · rw [if_neg hex]
    by_cases hce : (xs.filter (fun e => !(strBlank e.code))).length = 0
    · rw [if_pos hce]
      have hnil : xs.filter (fun e => !(strBlank e.code)) = [] :=
        List.length_eq_zero.mp hce
      constructor
      · intro h; simp at h
      · rintro ⟨⟨e, he, hbe⟩, -⟩
        have : e ∈ xs.filter (fun e => !(strBlank e.code)) :=
          List.mem_filter.mpr ⟨he, by simp [hbe]⟩
        rw [hnil] at this
        exact absurd this (List.not_mem_nil e)
    · rw [if_neg hce]
      have hne : xs.filter (fun e => !(strBlank e.code)) ≠ [] := by
        intro h
        exact hce (by rw [h]; rfl)
      have hsome : ∃ e ∈ xs, strBlank e.code = false := by
        obtain ⟨e, he⟩ := List.exists_mem_of_ne_nil _ hne
        have hm := List.mem_filter.mp he
        exact ⟨e, hm.1, by simpa using hm.2⟩
      by_cases hbg : (!((xs.filter (fun e => !(strBlank e.code))).any
            (fun e => vBadTest e.label)) &&
          !((xs.filter (fun e => !(strBlank e.code))).any
            (fun e => vGoodTest e.label))) = true
      · rw [if_pos hbg]
        simp only [Bool.and_eq_true, Bool.not_eq_true'] at hbg
        constructor
        · intro h; simp at h
        · rintro ⟨-, ⟨e, he, hbe, hpol⟩⟩
          have hmem : e ∈ xs.filter (fun e => !(strBlank e.code)) :=
            List.mem_filter.mpr ⟨he, by simp [hbe]⟩
          rcases hpol with hp | hp
          · have : (xs.filter (fun e => !(strBlank e.code))).any
                (fun e => vBadTest e.label) = true :=
              List.any_eq_true.mpr ⟨e, hmem, hp⟩
            rw [hbg.1] at this
            exact absurd this (by simp)
          · have : (xs.filter (fun e => !(strBlank e.code))).any
                (fun e => vGoodTest e.label) = true :=
              List.any_eq_true.mpr ⟨e, hmem, hp⟩
            rw [hbg.2] at this
            exact absurd this (by simp)
      · rw [if_neg hbg]
        have hpol : ((xs.filter (fun e => !(strBlank e.code))).any
              (fun e => vBadTest e.label) = true) ∨
            ((xs.filter (fun e => !(strBlank e.code))).any
              (fun e => vGoodTest e.label) = true) := by
          by_contra hno
          push_neg at hno
          exact hbg (by simp [Bool.not_eq_true] at hno ⊢
                        exact ⟨hno.1, hno.2⟩)
        constructor
        · intro _
          refine ⟨hsome, ?_⟩
          rcases hpol with hp | hp
          · obtain ⟨e, hmem, hbadE⟩ := List.any_eq_true.mp hp
            have hm := List.mem_filter.mp hmem
            exact ⟨e, hm.1, by simpa using hm.2, .inl hbadE⟩
          · obtain ⟨e, hmem, hgoodE⟩ := List.any_eq_true.mp hp
            have hm := List.mem_filter.mp hmem
            exact ⟨e, hm.1, by simpa using hm.2, .inr hgoodE⟩
        · intro _
          rfl

/-- The variant loop of `validate` only appends errors. -/
theorem validateAll_fst (sh : Directory) (vs : List (String × Directory)) :
    (validateAll sh vs).1 =
      (validateDir sh "shared").1 ++
        vs.flatMap (fun v => (validateDir v.2 v.1).1) := by
  have go : ∀ (vs : List (String × Directory))
      (acc : List ValidationError × Nat),
      (vs.foldl (fun acc v =>
        let r := validateDir v.2 v.1
        (acc.1 ++ r.1, acc.2 + r.2)) acc).1 =
        acc.1 ++ vs.flatMap (fun v => (validateDir v.2 v.1).1) := by
    intro vs
    induction vs with
    | nil => intro acc; simp
    | cons v rest ih => intro acc; simp [ih, List.append_assoc]
  unfold validateAll
  exact go vs _

/-- A flat-mapped error list is empty exactly when every corpus is clean. -/
theorem flatMap_errors_eq_nil (vs : List (String × Directory)) :
    vs.flatMap (fun v => (validateDir v.2 v.1).1) = [] ↔
      ∀ v ∈ vs, (validateDir v.2 v.1).1 = [] := by
  induction vs with
  | nil => simp
  | cons v rest ih => simp [ih]

/-- C6: `validateRule` passes exactly the rules meeting the full checklist
(non-empty title and explanation, a non-blank code example, a
polarity-labelled code example, a valid impact); a run collects every
violation of every corpus rather than stopping at the first, and the
process exits non-zero iff a violation exists in the shared corpus or in
some variant corpus. -/
theorem validator_full_checklist_and_exit :
    (∀ (r : Rule) (f s : String), validateRule r f s = [] ↔ checklist r) ∧
    (∀ (sh : Directory) (vs : List (String × Directory)),
      (validateAll sh vs).1 =
        (validateDir sh "shared").1 ++
          vs.flatMap (fun v => (validateDir v.2 v.1).1)) ∧
    (∀ (sh : Directory) (vs : List (String × Directory)),
      validateExitCode sh vs ≠ 0 ↔
        ((validateDir sh "shared").1 ≠ [] ∨
          ∃ v ∈ vs, (validateDir v.2 v.1).1 ≠ [])) := by
  refine ⟨?_, validateAll_fst, ?_⟩
  · intro r f s
    unfold validateRule checklist
    simp only [List.append_eq_nil]
    rw [validateRule_examples_iff]
    have h1 : ∀ (b : Bool) (x : ValidationError),
        (if b then [x] else []) = [] ↔ b = false := by
      intro b x; cases b <;> simp
    rw [h1, h1, h1]
    have h4 : (!(validImpacts.contains r.impact)) = false ↔
        r.impact ∈ validImpacts := by
      simp
    rw [h4]
    simp only [and_assoc]
  · intro sh vs
    unfold validateExitCode
    rw [validateAll_fst]
    by_cases hpos : 0 < ((validateDir sh "shared").1 ++
        vs.flatMap (fun v => (validateDir v.2 v.1).1)).length
    · rw [if_pos hpos]
      have hne : (validateDir sh "shared").1 ++
          vs.flatMap (fun v => (validateDir v.2 v.1).1) ≠ [] :=
        List.length_pos.mp hpos
      constructor
      · intro _
        by_contra hno
        push_neg at hno
        exact hne (List.append_eq_nil.mpr
          ⟨hno.1, (flatMap_errors_eq_nil vs).mpr hno.2⟩)
      · intro _
        simp
    · rw [if_neg hpos]
      have hnil : (validateDir sh "shared").1 ++
          vs.flatMap (fun v => (validateDir v.2 v.1).1) = [] := by
        have := Nat.eq_zero_of_not_pos hpos
        exact List.length_eq_zero.mp this
      rw [List.append_eq_nil] at hnil
      constructor
      · intro h
        exact absurd rfl h
      · rintro (h | ⟨v, hv, hvne⟩)
        · exact absurd hnil.1 h
        · exact absurd ((flatMap_errors_eq_nil vs).mp hnil.2 v hv) hvne

/-! ### Decimal representation facts (for the dotted ids) -/

theorem toDigitsCore_acc (fuel : Nat) : ∀ (n : Nat) (ds : List Char),
    Nat.toDigitsCore 10 fuel n ds = Nat.toDigitsCore 10 fuel n [] ++ ds := by
  induction fuel with
  | zero => intro n ds; simp [Nat.toDigitsCore]
  | succ f ih =>
    intro n ds
    simp only [Nat.toDigitsCore]
    by_cases h : n / 10 = 0
    · simp [h]
    · rw [if_neg h, if_neg h, ih (n / 10) [Nat.digitChar (n % 10)],
        ih (n / 10) (Nat.digitChar (n % 10) :: ds)]
      simp

theorem toDigitsCore_digits (fuel : Nat) : ∀ (n : Nat) (c : Char),
    c ∈ Nat.toDigitsCore 10 fuel n [] →
    c ∈ ['0', '1', '2', '3', '4', '5', '6', '7', '8', '9'] := by
  induction fuel with
  | zero => intro n c h; simp [Nat.toDigitsCore] at h
  | succ f ih =>
    intro n c h
    simp only [Nat.toDigitsCore] at h
    have hmod : n % 10 < 10 := Nat.mod_lt n (by norm_num)
    have hdig : Nat.digitChar (n % 10) ∈
        ['0', '1', '2', '3', '4', '5', '6', '7', '8', '9'] := by
      interval_cases h : n % 10 <;> decide
    by_cases h0 : n / 10 = 0
    · rw [if_pos h0] at h
      simp only [List.mem_singleton] at h
      rw [h]
      exact hdig
    · rw [if_neg h0, toDigitsCore_acc] at h
      rcases List.mem_append.mp h with h | h
      · exact ih (n / 10) c h
      · simp only [List.mem_singleton] at h
        rw [h]
        exact hdig

theorem repr_chars {n : Nat} {c : Char} (h : c ∈ (Nat.repr n).data) :
    c ∈ ['0', '1', '2', '3', '4', '5', '6', '7', '8', '9'] :=
  toDigitsCore_digits (n + 1) n c h

theorem repr_no_dot (n : Nat) : '.' ∉ (Nat.repr n).data :=
  fun h => absurd (repr_chars h) (by decide)

theorem repr_no_space (n : Nat) : ' ' ∉ (Nat.repr n).data :=
  fun h => absurd (repr_chars h) (by decide)

theorem repr_no_nl (n : Nat) : '\n' ∉ (Nat.repr n).data :=
  fun h => absurd (repr_chars h) (by decide)

theorem repr_no_hash (n : Nat) : '#' ∉ (Nat.repr n).data :=
  fun h => absurd (repr_chars h) (by decide)

theorem digitVal_digitChar {m : Nat} (h : m < 10) :
    digitVal (Nat.digitChar m) = m := by
  interval_cases m <;> decide

theorem digitsVal_append (xs : List Char) (c : Char) :
    digitsVal (xs ++ [c]) = digitsVal xs * 10 + digitVal c := by
  unfold digitsVal
  rw [List.foldl_append]
  rfl

theorem digitsVal_toDigitsCore : ∀ (fuel n : Nat), n < fuel →
    digitsVal (Nat.toDigitsCore 10 fuel n []) = n := by
  intro fuel
  induction fuel with
  | zero => intro n h; omega
  | succ f ih =>
    intro n h
    simp only [Nat.toDigitsCore]
    by_cases h10 : n / 10 = 0
    · rw [if_pos h10]
      have hlt : n < 10 := (Nat.div_eq_zero_iff (by norm_num)).mp h10
      have h1 : digitsVal [Nat.digitChar (n % 10)] =
          digitVal (Nat.digitChar (n % 10)) := by
        simp [digitsVal]
      rw [h1, digitVal_digitChar (Nat.mod_lt n (by norm_num))]
      omega
    · rw [if_neg h10, toDigitsCore_acc, digitsVal_append]
      have hn0 : 0 < n := by
        rcases Nat.eq_zero_or_pos n with h0 | h0
        · subst h0; simp at h10
        · exact h0
      have hf : n / 10 < f := by
        have h2 : n / 10 < n := Nat.div_lt_self hn0 (by norm_num)
        omega
      rw [ih (n / 10) hf, digitVal_digitChar (Nat.mod_lt n (by norm_num))]
      omega

theorem repr_digitsVal (n : Nat) : digitsVal (Nat.repr n).data = n :=
  digitsVal_toDigitsCore (n + 1) n (Nat.lt_succ_self n)

theorem repr_injective {a b : Nat} (h : Nat.repr a = Nat.repr b) : a = b := by
  have h2 := congrArg (fun s => digitsVal s.data) h
  simpa [repr_digitsVal] using h2

theorem append_dot_inj {v v' : List Char} :
    ∀ {u u' : List Char}, '.' ∉ u → '.' ∉ u' →
    u ++ '.' :: v = u' ++ '.' :: v' → u = u' ∧ v = v' := by
  intro u
  induction u with
  | nil =>
    intro u' hu hu' h
    cases u' with
    | nil => simpa using h
    | cons c u'' =>
      simp only [List.nil_append, List.cons_append, List.cons.injEq] at h
      refine absurd ?_ hu'
      rw [← h.1]
      exact List.mem_cons_self '.' u''
  | cons c u ih =>
    intro u' hu hu' h
    cases u' with
    | nil =>
      simp only [List.cons_append, List.nil_append, List.cons.injEq] at h
      refine absurd ?_ hu
      rw [h.1]
      exact List.mem_cons_self '.' u
    | cons c' u'' =>
      simp only [List.cons_append, List.cons.injEq] at h
      obtain ⟨hc, hrest⟩ := h
      have hu2 : '.' ∉ u := fun hm => hu (List.mem_cons_of_mem c hm)
      have hu2' : '.' ∉ u'' := fun hm => hu' (List.mem_cons_of_mem c' hm)
      obtain ⟨he, hv⟩ := ih hu2 hu2' hrest
      exact ⟨by rw [hc, he], hv⟩

theorem encodeId_data (a b : Nat) :
    (encodeId a b).data = (Nat.repr a).data ++ '.' :: (Nat.repr b).data := by
  unfold encodeId
  rw [String.data_append, String.data_append, List.append_assoc]
  rfl

theorem encodeId_inj {a b c d : Nat} (h : encodeId a b = encodeId c d) :
    a = c ∧ b = d := by
  have hd : (Nat.repr a).data ++ '.' :: (Nat.repr b).data =
      (Nat.repr c).data ++ '.' :: (Nat.repr d).data := by
    have h2 := congrArg String.data h
    rwa [encodeId_data, encodeId_data] at h2
  obtain ⟨h1, h2⟩ := append_dot_inj (repr_no_dot a) (repr_no_dot c) hd
  exact ⟨repr_injective (String.ext h1), repr_injective (String.ext h2)⟩

theorem encodeId_no_space (a b : Nat) : ' ' ∉ (encodeId a b).data := by
  rw [encodeId_data]
  intro h
  rcases List.mem_append.mp h with h | h
  · exact repr_no_space a h
  · rcases List.mem_cons.mp h with h | h
    · exact absurd h (by decide)
    · exact repr_no_space b h

theorem encodeId_no_nl (a b : Nat) : '\n' ∉ (encodeId a b).data := by
  rw [encodeId_data]
  intro h
  rcases List.mem_append.mp h with h | h
  · exact repr_no_nl a h
  · rcases List.mem_cons.mp h with h | h
    · exact absurd h (by decide)
    · exact repr_no_nl b h

/-! ### Grouping lemmas -/

theorem insertRule_numbers (meta : List (Nat × SectionMeta)) :
    ∀ (acc : List Section) (sec : Nat) (r : Rule),
    (insertRule meta acc sec r).map (fun s => s.number) =
      if sec ∈ acc.map (fun s => s.number) then acc.map (fun s => s.number)
      else acc.map (fun s => s.number) ++ [sec] := by
  intro acc
  induction acc with
  | nil =>
    intro sec r
    simp only [List.map_nil, List.not_mem_nil, if_false, List.nil_append]
    unfold insertRule mkSection
    cases mapGet meta sec <;> rfl
  | cons s ss ih =>
    intro sec r
    unfold insertRule
    by_cases h : s.number = sec
    · rw [if_pos h]
      simp [h]
    · rw [if_neg h]
      have hne : ¬ sec = s.number := fun he => h (Eq.symm he)
      simp only [List.map_cons, List.mem_cons]
      rw [ih sec r]
      by_cases hm : sec ∈ ss.map (fun s => s.number)
      · simp [hm, hne]
      · simp [hm, hne]

theorem insertRule_secRules (meta : List (Nat × SectionMeta)) :
    ∀ (acc : List Section) (sec : Nat) (r : Rule) (n : Nat),
    secRules (insertRule meta acc sec r) n =
      if n = sec then secRules acc n ++ [r] else secRules acc n := by
  intro acc
  induction acc with
  | nil =>
    intro sec r n
    unfold insertRule secRules
    by_cases h : n = sec
    · subst h
      have hnum : (mkSection meta n r).number = n := by
        unfold mkSection
        cases mapGet meta n <;> rfl
      simp [secRules, hnum]
    · have hnum : (mkSection meta sec r).number = sec := by
        unfold mkSection
        cases mapGet meta sec <;> rfl
      have hns : ¬ sec = n := fun he => h (Eq.symm he)
      simp [secRules, hnum, h, hns]
  | cons s ss ih =>
    intro sec r n
    unfold insertRule
    by_cases h : s.number = sec
    · rw [if_pos h]
      by_cases hn : n = sec
      · subst hn
        simp [secRules, h]
      · have hsnn : ¬ s.number = n := by
          rw [h]
          exact fun he => hn (Eq.symm he)
        simp [secRules, hsnn, hn]
    · rw [if_neg h]
      by_cases hsn : s.number = n
      · have hnsec : ¬ n = sec := by
          rw [← hsn]
          exact h
        simp [secRules, hsn, hnsec]
      · simp [secRules, hsn, ih sec r n]

theorem groupFold_numbers_mem (meta : List (Nat × SectionMeta)) :
    ∀ (rs : List RuleFile) (acc : List Section) (n : Nat),
    n ∈ (rs.foldl (fun a rf => insertRule meta a rf.section rf.rule)
        acc).map (fun s => s.number) ↔
      n ∈ acc.map (fun s => s.number) ∨ n ∈ rs.map (fun rf => rf.section) := by
  intro rs
  induction rs with
  | nil => intro acc n; simp
  | cons rf rs ih =>
    intro acc n
    rw [List.foldl_cons, ih]
    rw [insertRule_numbers]
    by_cases hm : rf.section ∈ acc.map (fun s => s.number)
    · rw [if_pos hm]
      simp only [List.map_cons, List.mem_cons]
      constructor
      · rintro (h | h)
        · exact .inl h
        · exact .inr (.inr h)
      · rintro (h | h | h)
        · exact .inl h
        · rw [h]; exact .inl hm
        · exact .inr h
    · rw [if_neg hm]
      simp only [List.mem_append, List.mem_singleton, List.map_cons,
        List.mem_cons]
      tauto

theorem groupFold_numbers_nodup (meta : List (Nat × SectionMeta)) :
    ∀ (rs : List RuleFile) (acc : List Section),
    (acc.map (fun s => s.number)).Nodup →
    ((rs.foldl (fun a rf => insertRule meta a rf.section rf.rule)
        acc).map (fun s => s.number)).Nodup := by
  intro rs
  induction rs with
  | nil => intro acc h; exact h
  | cons rf rs ih =>
    intro acc h
    rw [List.foldl_cons]
    refine ih _ ?_
    rw [insertRule_numbers]
    by_cases hm : rf.section ∈ acc.map (fun s => s.number)
    · rwa [if_pos hm]
    · rw [if_neg hm]
      rw [List.nodup_append]
      exact ⟨h, List.nodup_singleton _, by simpa using hm⟩

theorem groupFold_secRules (meta : List (Nat × SectionMeta)) :
    ∀ (rs : List RuleFile) (acc : List Section) (n : Nat),
    secRules (rs.foldl (fun a rf => insertRule meta a rf.section rf.rule)
        acc) n =
      secRules acc n ++
        (rs.filter (fun rf => rf.section = n)).map (fun rf => rf.rule) := by
  intro rs
  induction rs with
  | nil => intro acc n; simp
  | cons rf rs ih =>
    intro acc n
    rw [List.foldl_cons, ih, insertRule_secRules]
    by_cases h : rf.section = n
    · have hn : n = rf.section := h.symm
      rw [if_pos hn]
      simp [List.filter_cons, h, List.append_assoc]
    · have hn : ¬ n = rf.section := fun he => h he.symm
      rw [if_neg hn]
      simp [List.filter_cons, h]

theorem groupRules_numbers_mem (rules : List RuleFile)
    (meta : List (Nat × SectionMeta)) (n : Nat) :
    n ∈ (groupRules rules meta).map (fun s => s.number) ↔
      n ∈ rules.map (fun rf => rf.section) := by
  unfold groupRules
  rw [groupFold_numbers_mem]
  simp

theorem groupRules_numbers_nodup (rules : List RuleFile)
    (meta : List (Nat × SectionMeta)) :
    ((groupRules rules meta).map (fun s => s.number)).Nodup := by
  unfold groupRules
  exact groupFold_numbers_nodup meta rules [] (by simp)

theorem groupRules_secRules (rules : List RuleFile)
    (meta : List (Nat × SectionMeta)) (n : Nat) :
    secRules (groupRules rules meta) n = rulesOf rules n := by
  unfold groupRules rulesOf
  rw [groupFold_secRules]
  simp [secRules]

theorem secRules_of_mem :
    ∀ (l : List Section), ((l.map (fun s => s.number)).Nodup) →
    ∀ s ∈ l, secRules l s.number = s.rules := by
  intro l
  induction l with
  | nil => intro _ s hs; exact absurd hs (List.not_mem_nil s)
  | cons t ts ih =>
    intro hnd s hs
    simp only [List.map_cons, List.nodup_cons] at hnd
    rcases List.mem_cons.mp hs with h | h
    · subst h
      simp [secRules]
    · have hne : ¬ t.number = s.number := by
        intro he
        exact hnd.1 (he ▸ List.mem_map_of_mem (fun s => s.number) h)
      simp only [secRules, if_neg hne]
      exact ih hnd.2 s h

/-! ### Id-assignment lemmas -/

theorem assignNums_length (sec : Nat) :
    ∀ (i : Nat) (l : List Rule), (assignNums sec i l).length = l.length := by
  intro i l
  induction l generalizing i with
  | nil => rfl
  | cons r rs ih => simp [assignNums, ih]

theorem assignNums_map_title (sec : Nat) :
    ∀ (i : Nat) (l : List Rule),
    (assignNums sec i l).map (fun r => r.title) =
      l.map (fun r => r.title) := by
  intro i l
  induction l generalizing i with
  | nil => rfl
  | cons r rs ih => simp [assignNums, ih]

theorem assignNums_map_strip (sec : Nat) :
    ∀ (i : Nat) (l : List Rule),
    (assignNums sec i l).map stripAssign = l.map stripAssign := by
  intro i l
  induction l generalizing i with
  | nil => rfl
  | cons r rs ih => simp [assignNums, ih, stripAssign]

theorem assignNums_map_id (sec : Nat) :
    ∀ (i : Nat) (l : List Rule),
    (assignNums sec i l).map (fun r => r.id) =
      (List.range l.length).map (fun j => some (encodeId sec (i + j))) := by
  intro i l
  induction l generalizing i with
  | nil => rfl
  | cons r rs ih =>
    simp only [assignNums, List.map_cons, List.length_cons,
      List.range_succ_eq_map, List.map_map, Nat.add_zero]
    congr 1
    rw [ih (i + 1)]
    refine List.map_congr_left fun j _ => ?_
    congr 2
    omega

theorem assignNums_map_subsection (sec : Nat) :
    ∀ (i : Nat) (l : List Rule),
    (assignNums sec i l).map (fun r => r.subsection) =
      (List.range l.length).map (fun j => some (i + j)) := by
  intro i l
  induction l generalizing i with
  | nil => rfl
  | cons r rs ih =>
    simp only [assignNums, List.map_cons, List.length_cons,
      List.range_succ_eq_map, List.map_map, Nat.add_zero]
    congr 1
    rw [ih (i + 1)]
    refine List.map_congr_left fun j _ => ?_
    congr 1
    omega

theorem assignNums_title_mem (sec : Nat) :
    ∀ (i : Nat) (l : List Rule) (b : Rule), b ∈ assignNums sec i l →
    ∃ b' ∈ l, b.title = b'.title := by
  intro i l
  induction l generalizing i with
  | nil => intro b hb; exact absurd hb (List.not_mem_nil b)
  | cons r rs ih =>
    intro b hb
    rcases List.mem_cons.mp hb with h | h
    · exact ⟨r, List.mem_cons_self r rs, by rw [h]⟩
    · obtain ⟨b', hb', ht⟩ := ih (i + 1) b h
      exact ⟨b', List.mem_cons_of_mem r hb', ht⟩

theorem assignNums_pairwise (sec : Nat) :
    ∀ (i : Nat) {l : List Rule}, l.Pairwise titleLe →
    (assignNums sec i l).Pairwise titleLe := by
  intro i l
  induction l generalizing i with
  | nil => intro _; exact List.Pairwise.nil
  | cons r rs ih =>
    intro h
    rw [List.pairwise_cons] at h
    simp only [assignNums]
    rw [List.pairwise_cons]
    refine ⟨?_, ih (i + 1) h.2⟩
    intro b hb
    obtain ⟨b', hb', ht⟩ := assignNums_title_mem sec (i + 1) rs b hb
    have hle := h.1 b' hb'
    unfold titleLe at hle ⊢
    rw [ht]
    exact hle

/-! ### Assembled-document lemmas -/

theorem mem_buildSections {rules : List RuleFile}
    {meta : List (Nat × SectionMeta)} {s : Section} :
    s ∈ buildSections rules meta ↔
      ∃ s₀ ∈ groupRules rules meta, s = sortAssign s₀ := by
  unfold buildSections
  rw [List.mem_insertionSort, List.mem_map]
  constructor
  · rintro ⟨s₀, h, he⟩
    exact ⟨s₀, h, he.symm⟩
  · rintro ⟨s₀, h, he⟩
    exact ⟨s₀, h, he.symm⟩

theorem buildSections_numbers_perm (rules : List RuleFile)
    (meta : List (Nat × SectionMeta)) :
    ((buildSections rules meta).map (fun s => s.number)).Perm
      ((groupRules rules meta).map (fun s => s.number)) := by
  unfold buildSections
  have h1 := (List.perm_insertionSort numberLe
    ((groupRules rules meta).map sortAssign)).map (fun s => s.number)
  rwa [List.map_map] at h1

theorem buildSections_numbers_nodup (rules : List RuleFile)
    (meta : List (Nat × SectionMeta)) :
    ((buildSections rules meta).map (fun s => s.number)).Nodup :=
  (buildSections_numbers_perm rules meta).nodup_iff.mpr
    (groupRules_numbers_nodup rules meta)

/-- C2: the assembled section numbers are strictly increasing and are
exactly the section numbers occurring among the input rules — a number
present only in the metadata map never appears. -/
theorem assembler_numbers_strictly_increasing_match_input
    (rules : List RuleFile) (meta : List (Nat × SectionMeta)) :
    ((buildSections rules meta).map (fun s => s.number)).Pairwise (· < ·) ∧
    (∀ n, n ∈ (buildSections rules meta).map (fun s => s.number) ↔
      n ∈ rules.map (fun rf => rf.section)) := by
  constructor
  · have hsort : (buildSections rules meta).Pairwise numberLe := by
      unfold buildSections
      exact List.sorted_insertionSort numberLe _
    have hle : ((buildSections rules meta).map
        (fun s => s.number)).Pairwise (· ≤ ·) :=
      List.pairwise_map.mpr hsort
    have hne : ((buildSections rules meta).map
        (fun s => s.number)).Pairwise (· ≠ ·) :=
      buildSections_numbers_nodup rules meta
    exact (hle.and hne).imp fun h => lt_of_le_of_ne h.1 h.2
  · intro n
    rw [(buildSections_numbers_perm rules meta).mem_iff]
    exact groupRules_numbers_mem rules meta n

/-- The five per-section facts of the assembler: rules sorted by the
case-insensitive title order, content a permutation of that section's
input rules, ties kept in input order, and ids/subsections assigned by
sorted position. -/
theorem buildSections_section_facts (rules : List RuleFile)
    (meta : List (Nat × SectionMeta)) :
    ∀ s ∈ buildSections rules meta,
      s.rules.Pairwise titleLe ∧
      (s.rules.map stripAssign).Perm
        ((rulesOf rules s.number).map stripAssign) ∧
      (∀ a b : Rule, titleLe a b → [a, b].Sublist (rulesOf rules s.number) →
        [a.title, b.title].Sublist (s.rules.map (fun r => r.title))) ∧
      s.rules.map (fun r => r.id) =
        (List.range s.rules.length).map
          (fun j => some (encodeId s.number (j + 1))) ∧
      s.rules.map (fun r => r.subsection) =
        (List.range s.rules.length).map (fun j => some (j + 1)) := by
  intro s hs
  obtain ⟨s₀, hg, he⟩ := mem_buildSections.mp hs
  subst he
  have hrules : (sortAssign s₀).rules =
      assignNums s₀.number 1 (s₀.rules.insertionSort titleLe) := rfl
  have hrof : rulesOf rules (sortAssign s₀).number = s₀.rules := by
    show rulesOf rules s₀.number = s₀.rules
    rw [← groupRules_secRules rules meta s₀.number]
    exact secRules_of_mem _ (groupRules_numbers_nodup rules meta) s₀ hg
  refine ⟨?_, ?_, ?_, ?_, ?_⟩
  · rw [hrules]
    exact assignNums_pairwise s₀.number 1
      (List.sorted_insertionSort titleLe s₀.rules)
  · rw [hrules, assignNums_map_strip, hrof]
    exact (List.perm_insertionSort titleLe s₀.rules).map stripAssign
  · intro a b hab hsub
    rw [hrof] at hsub
    have h1 : [a, b].Sublist (s₀.rules.insertionSort titleLe) :=
      List.pair_sublist_insertionSort hab hsub
    have h2 := h1.map (fun r => r.title)
    rw [hrules, assignNums_map_title]
    exact h2
  · rw [hrules, assignNums_map_id, assignNums_length,
      List.length_insertionSort]
    refine List.map_congr_left fun j _ => ?_
    congr 2
    omega
  · rw [hrules, assignNums_map_subsection, assignNums_length,
      List.length_insertionSort]
    refine List.map_congr_left fun j _ => ?_
    congr 1
    omega

/-- The assembled ids, over the whole document, have no duplicates. -/
theorem buildSections_ids_nodup (rules : List RuleFile)
    (meta : List (Nat × SectionMeta)) :
    ((buildSections rules meta).flatMap
      (fun s => s.rules.map (fun r => r.id))).Nodup := by
  rw [List.nodup_flatMap]
  constructor
  · intro s hs
    rw [(buildSections_section_facts rules meta s hs).2.2.2.1]
    refine List.Nodup.map ?_ (List.nodup_range _)
    intro j₁ j₂ hj
    simp only [Option.some.injEq] at hj
    have := (encodeId_inj hj).2
    omega
  · have hnn := buildSections_numbers_nodup rules meta
    have hp : (buildSections rules meta).Pairwise
        (fun s t => s.number ≠ t.number) :=
      (List.pairwise_map (f := fun s : Section => s.number)).mp hnn
    refine hp.imp_of_mem ?_
    intro s t hsmem htmem hne
    intro x hxs hxt
    have hxs' : x ∈ s.rules.map (fun r => r.id) := hxs
    have hxt' : x ∈ t.rules.map (fun r => r.id) := hxt
    rw [(buildSections_section_facts rules meta s hsmem).2.2.2.1] at hxs'
    rw [(buildSections_section_facts rules meta t htmem).2.2.2.1] at hxt'
    obtain ⟨j₁, _, hx1⟩ := List.mem_map.mp hxs'
    obtain ⟨j₂, _, hx2⟩ := List.mem_map.mp hxt'
    rw [← hx1] at hx2
    simp only [Option.some.injEq] at hx2
    exact hne (encodeId_inj hx2).1.symm

/-- C1: within each assembled section the rules are sorted by the
case-insensitive title order with ties kept in input order, the content is
exactly that section's merged input rules, and each rule gets
`id = "<section>.<position+1>"` and `subsection = position+1`; all ids of
one compiled document are distinct; and the shared `Use X` (section 1) /
`Use Y` (section 2) merged with variant `Use Z` (section 1) scenario yields
ids 1.1, 1.2, 2.1. -/
theorem assembler_sorts_assigns_unique_ids (rules : List RuleFile)
    (meta : List (Nat × SectionMeta)) :
    (∀ s ∈ buildSections rules meta,
      s.rules.Pairwise titleLe ∧
      (s.rules.map stripAssign).Perm
        ((rulesOf rules s.number).map stripAssign) ∧
      (∀ a b : Rule, titleLe a b → [a, b].Sublist (rulesOf rules s.number) →
        [a.title, b.title].Sublist (s.rules.map (fun r => r.title))) ∧
      s.rules.map (fun r => r.id) =
        (List.range s.rules.length).map
          (fun j => some (encodeId s.number (j + 1))) ∧
      s.rules.map (fun r => r.subsection) =
        (List.range s.rules.length).map (fun j => some (j + 1))) ∧
    ((buildSections rules meta).flatMap
      (fun s => s.rules.map (fun r => r.id))).Nodup ∧
    (buildSections (mergeRules
        [⟨1, { title := "Use X", impact := "HIGH", impactDescription := "",
               explanation := "E", examples := [], references := [] }⟩,
         ⟨2, { title := "Use Y", impact := "HIGH", impactDescription := "",
               explanation := "E", examples := [], references := [] }⟩]
        [⟨1, { title := "Use Z", impact := "HIGH", impactDescription := "",
               explanation := "E", examples := [], references := [] }⟩])
      []).map (fun s => (s.number, s.rules.map
        (fun r => (r.title, r.id, r.subsection)))) =
    [(1, [("Use X", some "1.1", some 1), ("Use Z", some "1.2", some 2)]),
     (2, [("Use Y", some "2.1", some 1)])] :=
  ⟨buildSections_section_facts rules meta,
   buildSections_ids_nodup rules meta,
   by decide⟩

/-- Witness for C1: in the merged `Use X`/`Use Y`/`Use Z` scenario the
section numbered 1 gets ids by sorted position, and the tie-free pair
(`Use X`, `Use Z`) keeps its order. -/
theorem assembler_sorts_assigns_unique_ids_witness :
    ∃ s ∈ buildSections (mergeRules
        [⟨1, { title := "Use X", impact := "HIGH", impactDescription := "",
               explanation := "E", examples := [], references := [] }⟩,
         ⟨2, { title := "Use Y", impact := "HIGH", impactDescription := "",
               explanation := "E", examples := [], references := [] }⟩]
        [⟨1, { title := "Use Z", impact := "HIGH", impactDescription := "",
               explanation := "E", examples := [], references := [] }⟩]) [],
      s.rules.map (fun r => r.id) =
        (List.range s.rules.length).map
          (fun j => some (encodeId s.number (j + 1))) ∧
      [("Use X" : String), "Use Z"].Sublist
        (s.rules.map (fun r => r.title)) := by
  have hfacts := (assembler_sorts_assigns_unique_ids (mergeRules
        [⟨1, { title := "Use X", impact := "HIGH", impactDescription := "",
               explanation := "E", examples := [], references := [] }⟩,
         ⟨2, { title := "Use Y", impact := "HIGH", impactDescription := "",
               explanation := "E", examples := [], references := [] }⟩]
        [⟨1, { title := "Use Z", impact := "HIGH", impactDescription := "",
               explanation := "E", examples := [], references := [] }⟩])
      []).1
      { number := 1, title := "Section 1", impact := "HIGH",
        introduction := "",
        rules := [{ title := "Use X", impact := "HIGH",
                    impactDescription := "", explanation := "E",
                    examples := [], references := [],
                    id := some "1.1", subsection := some 1 },
                  { title := "Use Z", impact := "HIGH",
                    impactDescription := "", explanation := "E",
                    examples := [], references := [],
                    id := some "1.2", subsection := some 2 }] }
      (by decide)
  refine ⟨_, by decide, hfacts.2.2.2.1, ?_⟩
  have hsub := hfacts.2.2.1
    { title := "Use X", impact := "HIGH", impactDescription := "",
      explanation := "E", examples := [], references := [] }
    { title := "Use Z", impact := "HIGH", impactDescription := "",
      explanation := "E", examples := [], references := [] }
    (by decide)
    (by rw [show rulesOf (mergeRules
        [⟨1, { title := "Use X", impact := "HIGH", impactDescription := "",
               explanation := "E", examples := [], references := [] }⟩,
         ⟨2, { title := "Use Y", impact := "HIGH", impactDescription := "",
               explanation := "E", examples := [], references := [] }⟩]
        [⟨1, { title := "Use Z", impact := "HIGH", impactDescription := "",
               explanation := "E", examples := [], references := [] }⟩]) 1 =
      [{ title := "Use X", impact := "HIGH", impactDescription := "",
         explanation := "E", examples := [], references := [] },
       { title := "Use Z", impact := "HIGH", impactDescription := "",
         explanation := "E", examples := [], references := [] }]
      from by decide])
  exact hsub

/-! ### Line-splitting lemmas -/

theorem splitLinesCh_ne_nil : ∀ (l : List Char), splitLinesCh l ≠ [] := by
  intro l
  cases l with
  | nil => simp [splitLinesCh]
  | cons c rest =>
    simp only [splitLinesCh]
    rcases splitLinesCh rest with _ | ⟨m, ms⟩
    · simp
    · by_cases hc : c = '\n' <;> simp [hc]

theorem splitLinesCh_nl : ∀ (p rest : List Char),
    splitLinesCh (p ++ '\n' :: rest) =
      splitLinesCh p ++ splitLinesCh rest := by
  intro p
  induction p with
  | nil =>
    intro rest
    rcases hsp : splitLinesCh rest with _ | ⟨m, ms⟩
    · exact absurd hsp (splitLinesCh_ne_nil rest)
    · simp [splitLinesCh, hsp]
  | cons c p ih =>
    intro rest
    rcases hp : splitLinesCh p with _ | ⟨l, ls⟩
    · exact absurd hp (splitLinesCh_ne_nil p)
    · rcases hpr : splitLinesCh (p ++ '\n' :: rest) with _ | ⟨m, ms⟩
      · exact absurd hpr (splitLinesCh_ne_nil _)
      · have hih := ih rest
        rw [hpr, hp] at hih
        simp only [List.cons_append] at hih ⊢
        simp only [splitLinesCh, hpr, hp]
        cases hih
        by_cases hc : c = '\n' <;> simp [hc]

theorem splitLinesCh_no_nl : ∀ {l : List Char}, '\n' ∉ l →
    splitLinesCh l = [l] := by
  intro l
  induction l with
  | nil => intro _; rfl
  | cons c rest ih =>
    intro h
    have hc : ¬ c = '\n' := fun he => h (he ▸ List.mem_cons_self c rest)
    have hr : '\n' ∉ rest := fun hm => h (List.mem_cons_of_mem c hm)
    simp [splitLinesCh, ih hr, hc]

/-! ### Heading-line parsing lemmas -/

theorem parseHeading_nil : parseHeading [] = none := rfl

theorem parseHeading_not {l : List Char}
    (h : chPrefix "### ".data l = false) : parseHeading l = none := by
  simp [parseHeading, h]

theorem chPrefix_cons_ne {c : Char} (h : ¬ c = '#') (rest : List Char) :
    chPrefix "### ".data (c :: rest) = false := by
  have h2 : ¬ ('#' : Char) = c := fun he => h (Eq.symm he)
  simp [chPrefix, show "### ".data = ['#', '#', '#', ' '] from rfl,
    List.isPrefixOf, h2]

theorem chPrefix_cons3_ne {c : Char} (h : ¬ c = '#') (rest : List Char) :
    chPrefix "### ".data ('#' :: '#' :: c :: rest) = false := by
  have h2 : ¬ ('#' : Char) = c := fun he => h (Eq.symm he)
  simp [chPrefix, show "### ".data = ['#', '#', '#', ' '] from rfl,
    List.isPrefixOf, h2]

theorem hash4_of_hash3 {l : List Char}
    (h : chPrefix "###".data l = false) :
    chPrefix "### ".data l = false := by
  by_contra hb
  rw [Bool.not_eq_false] at hb
  have hb' : "### ".data <+: l := by
    rw [← List.isPrefixOf_iff_prefix]
    exact hb
  have h3 : "###".data <+: "### ".data := ⟨[' '], rfl⟩
  have htr := h3.trans hb'
  have hcp : chPrefix "###".data l = true := by
    unfold chPrefix
    rw [List.isPrefixOf_iff_prefix]
    exact htr
  rw [h] at hcp
  exact absurd hcp (by simp)

theorem chPrefix_head_not_hash {u w : List Char} (hne : u ≠ [])
    (hh : '#' ∉ u) : chPrefix "### ".data (u ++ w) = false := by
  cases u with
  | nil => exact absurd rfl hne
  | cons c rest =>
    have hc : ¬ c = '#' := fun he => hh (he ▸ List.mem_cons_self c rest)
    exact chPrefix_cons_ne hc _

theorem chPrefix_append_spaces {u : List Char}
    (h : chPrefix "###".data u = false) :
    chPrefix "### ".data (u ++ [' ', ' ']) = false := by
  match u with
  | [] => decide
  | [c] =>
    by_cases hc : c = '#'
    · subst hc; decide
    · exact chPrefix_cons_ne hc _
  | [c, d] =>
    by_cases hc : c = '#'
    · by_cases hd : d = '#'
      · subst hc hd; decide
      · subst hc
        have h2 : ¬ ('#' : Char) = d := fun he => hd (Eq.symm he)
        simp [chPrefix, show "### ".data = ['#', '#', '#', ' '] from rfl,
          List.isPrefixOf, h2]
    · exact chPrefix_cons_ne hc _
  | c :: d :: e :: rest =>
    by_cases hc : c = '#'
    · by_cases hd : d = '#'
      · by_cases he : e = '#'
        · subst hc hd he
          rw [show chPrefix "###".data ('#' :: '#' :: '#' :: rest) = true
            from by simp [chPrefix, List.isPrefixOf]] at h
          exact absurd h (by simp)
        · subst hc hd
          exact chPrefix_cons3_ne he _
      · subst hc
        have h2 : ¬ ('#' : Char) = d := fun hed => hd (Eq.symm hed)
        simp [chPrefix, show "### ".data = ['#', '#', '#', ' '] from rfl,
          List.isPrefixOf, h2]
    · exact chPrefix_cons_ne hc _

theorem split_first_token {u : List Char} (v : List Char) (h : ' ' ∉ u) :
    (u ++ ' ' :: v).takeWhile (fun c => !(c = ' ')) = u ∧
    (u ++ ' ' :: v).dropWhile (fun c => !(c = ' ')) = ' ' :: v := by
  induction u with
  | nil => simp [List.takeWhile_cons, List.dropWhile_cons]
  | cons c u ih =>
    have hc : ¬ c = ' ' := fun he => h (he ▸ List.mem_cons_self c u)
    have hu : ' ' ∉ u := fun hm => h (List.mem_cons_of_mem c hm)
    obtain ⟨h1, h2⟩ := ih hu
    simp only [List.cons_append, List.takeWhile_cons, List.dropWhile_cons,
      hc]
    simp [h1, h2, hc]

theorem parseHeading_heading (i t : String) (hsp : ' ' ∉ i.data) :
    parseHeading ('#' :: '#' :: '#' :: ' ' :: (i.data ++ ' ' :: t.data)) =
      some (i, t) := by
  unfold parseHeading
  have hpre : chPrefix "### ".data
      ('#' :: '#' :: '#' :: ' ' :: (i.data ++ ' ' :: t.data)) = true := by
    simp [chPrefix, show "### ".data = ['#', '#', '#', ' '] from rfl,
      List.isPrefixOf]
  rw [if_pos hpre]
  obtain ⟨h1, h2⟩ := split_first_token t.data hsp
  show some
      (⟨(i.data ++ ' ' :: t.data).takeWhile (fun c => !(c = ' '))⟩,
       ⟨((i.data ++ ' ' :: t.data).dropWhile (fun c => !(c = ' '))).drop 1⟩)
    = some (i, t)
  rw [h1, h2]
  rfl

/-! ### `headsCh` line-consumption lemmas -/

theorem headsCh_nil : headsCh [] = [] := rfl

theorem headsCh_nl (rest : List Char) :
    headsCh ('\n' :: rest) = headsCh rest := by
  unfold headsCh
  have h := splitLinesCh_nl [] rest
  simp only [List.nil_append] at h
  rw [h]
  simp [splitLinesCh, List.filterMap_cons, parseHeading_nil]

theorem headsCh_line {l : List Char} (h1 : '\n' ∉ l)
    (h2 : chPrefix "### ".data l = false) (rest : List Char) :
    headsCh (l ++ '\n' :: rest) = headsCh rest := by
  unfold headsCh
  rw [splitLinesCh_nl, splitLinesCh_no_nl h1, List.filterMap_append]
  simp [List.filterMap_cons, parseHeading_not h2]

theorem headsCh_text {f : String} (h : textClean f) (rest : List Char) :
    headsCh (f.data ++ '\n' :: rest) = headsCh rest := by
  unfold headsCh
  rw [splitLinesCh_nl, List.filterMap_append]
  have hnil : (splitLinesCh f.data).filterMap parseHeading = [] :=
    List.filterMap_eq_nil_iff.mpr fun l hl => parseHeading_not (h l hl)
  rw [hnil]
  rfl

theorem headsCh_heading (i t : String) (hsp : ' ' ∉ i.data)
    (hni : '\n' ∉ i.data) (hnt : '\n' ∉ t.data) (rest : List Char) :
    headsCh (('#' :: '#' :: '#' :: ' ' :: (i.data ++ ' ' :: t.data)) ++
        '\n' :: rest) =
      (i, t) :: headsCh rest := by
  unfold headsCh
  rw [splitLinesCh_nl]
  have hline : '\n' ∉ '#' :: '#' :: '#' :: ' ' :: (i.data ++ ' ' :: t.data) := by
    intro hm
    simp only [List.mem_cons, List.mem_append] at hm
    rcases hm with hm | hm | hm | hm | hm | hm
    · exact absurd hm (by decide)
    · exact absurd hm (by decide)
    · exact absurd hm (by decide)
    · exact absurd hm (by decide)
    · exact hni hm
    · rcases hm with hm | hm
      · exact absurd hm (by decide)
      · exact hnt hm
  rw [splitLinesCh_no_nl hline, List.filterMap_append]
  rw [show List.filterMap parseHeading
      [('#' :: '#' :: '#' :: ' ' :: (i.data ++ ' ' :: t.data))] =
    [(i, t)] from by
      rw [List.filterMap_cons, parseHeading_heading i t hsp]
      rfl]
  rfl

/-! ### Newline-freeness of rendered inline material -/

theorem wsDash_no_nl : ∀ (b : Bool) (l : List Char), '\n' ∉ wsDash b l := by
  intro b l
  induction l generalizing b with
  | nil => simp [wsDash]
  | cons c rest ih =>
    simp only [wsDash]
    by_cases hw : isWsp c
    · rw [if_pos hw]
      by_cases hb : b
      · rw [if_pos hb]
        exact ih true
      · rw [if_neg hb]
        intro hm
        rcases List.mem_cons.mp hm with hm | hm
        · exact absurd hm (by decide)
        · exact ih true hm
    · rw [if_neg hw]
      intro hm
      rcases List.mem_cons.mp hm with hm | hm
      · rw [← hm] at hw
        exact hw (by decide)
      · exact ih false hm

theorem sectionAnchor_no_nl (s : Section) :
    '\n' ∉ (sectionAnchor s).data := by
  unfold sectionAnchor
  rw [String.data_append, String.data_append]
  intro hm
  rcases List.mem_append.mp hm with hm | hm
  · rcases List.mem_append.mp hm with hm | hm
    · exact repr_no_nl s.number hm
    · exact absurd hm (by decide)
  · exact wsDash_no_nl false _ (List.mem_filter.mp hm).1

theorem ruleAnchor_no_nl (r : Rule) : '\n' ∉ (ruleAnchor r).data := by
  unfold ruleAnchor
  intro hm
  exact wsDash_no_nl false _ (List.mem_filter.mp hm).1

theorem joinSep_no_nl {sep : String} (hs : '\n' ∉ sep.data) :
    ∀ {l : List String}, (∀ x ∈ l, '\n' ∉ x.data) →
    '\n' ∉ (joinSep sep l).data := by
  intro l
  induction l with
  | nil =>
    intro _
    show '\n' ∉ ([] : List Char)
    simp
  | cons s rest ih =>
    intro h
    cases rest with
    | nil => exact h s (List.mem_cons_self s [])
    | cons t ts =>
      show '\n' ∉ (s ++ sep ++ joinSep sep (t :: ts)).data
      rw [String.data_append, String.data_append]
      intro hm
      rcases List.mem_append.mp hm with hm | hm
      · rcases List.mem_append.mp hm with hm | hm
        · exact h s (List.mem_cons_self s _) hm
        · exact hs hm
      · exact ih (fun x hx => h x (List.mem_cons_of_mem s hx)) hm

theorem strConcat_cons_data (s : String) (l : List String) :
    (strConcat (s :: l)).data = s.data ++ (strConcat l).data :=
  String.data_append s (strConcat l)

/-! ### Heading extraction over each rendered unit -/

theorem headsCh_exLabel (e : RuleExample) (hl : '\n' ∉ e.label.data)
    (hd : '\n' ∉ e.description.data) (rest : List Char) :
    headsCh ((if e.description = "" then "**" ++ e.label ++ ":**\n\n"
      else "**" ++ e.label ++ " (" ++ e.description ++ "):**\n\n").data ++
      rest) = headsCh rest := by
  by_cases hdesc : e.description = ""
  · rw [if_pos hdesc]
    have hshape : ("**" ++ e.label ++ ":**\n\n").data ++ rest =
        ('*' :: '*' :: (e.label.data ++ [':', '*', '*'])) ++
          '\n' :: ('\n' :: rest) := by
      simp [String.data_append,
        show ("**" : String).data = ['*', '*'] from rfl,
        show (":**\n\n" : String).data = [':', '*', '*', '\n', '\n']
          from rfl]
    rw [hshape, headsCh_line ?_ ?_, headsCh_nl]
    · intro hm
      rcases List.mem_cons.mp hm with hm | hm
      · exact absurd hm (by decide)
      · rcases List.mem_cons.mp hm with hm | hm
        · exact absurd hm (by decide)
        · rcases List.mem_append.mp hm with hm | hm
          · exact hl hm
          · exact absurd hm (by decide)
    · exact chPrefix_cons_ne (by decide) _
  · rw [if_neg hdesc]
    have hshape : ("**" ++ e.label ++ " (" ++ e.description ++
        "):**\n\n").data ++ rest =
        ('*' :: '*' :: (e.label.data ++ ' ' :: '(' :: (e.description.data ++
          [')', ':', '*', '*']))) ++ '\n' :: ('\n' :: rest) := by
      simp [String.data_append,
        show ("**" : String).data = ['*', '*'] from rfl,
        show (" (" : String).data = [' ', '('] from rfl,
        show ("):**\n\n" : String).data = [')', ':', '*', '*', '\n', '\n']
          from rfl]
    rw [hshape, headsCh_line ?_ ?_, headsCh_nl]
    · intro hm
      rcases List.mem_cons.mp hm with hm | hm
      · exact absurd hm (by decide)
      · rcases List.mem_cons.mp hm with hm | hm
        · exact absurd hm (by decide)
        · rcases List.mem_append.mp hm with hm | hm
          · exact hl hm
          · rcases List.mem_cons.mp hm with hm | hm
            · exact absurd hm (by decide)
            · rcases List.mem_cons.mp hm with hm | hm
              · exact absurd hm (by decide)
              · rcases List.mem_append.mp hm with hm | hm
                · exact hd hm
                · exact absurd hm (by decide)
    · exact chPrefix_cons_ne (by decide) _

theorem headsCh_exCode (e : RuleExample) (hlang : '\n' ∉ e.language.data)
    (hcode : textClean e.code) (rest : List Char) :
    headsCh ((if strBlank e.code then ""
      else "```" ++ strOr e.language "typescript" ++ "\n" ++ e.code ++
        "\n```\n\n").data ++ rest) = headsCh rest := by
  by_cases hb : strBlank e.code
  · rw [if_pos hb]
    rfl
  · rw [if_neg hb]
    have hlg : '\n' ∉ (strOr e.language "typescript").data := by
      unfold strOr
      by_cases h : e.language = ""
      · rw [if_pos h]
        decide
      · rw [if_neg h]
        exact hlang
    have hshape : ("```" ++ strOr e.language "typescript" ++ "\n" ++
        e.code ++ "\n```\n\n").data ++ rest =
        ('`' :: '`' :: '`' :: (strOr e.language "typescript").data) ++
          '\n' :: (e.code.data ++
            '\n' :: (['`', '`', '`'] ++ '\n' :: ('\n' :: rest))) := by
      simp [String.data_append,
        show ("```" : String).data = ['`', '`', '`'] from rfl,
        show ("\n" : String).data = ['\n'] from rfl,
        show ("\n```\n\n" : String).data = ['\n', '`', '`', '`', '\n', '\n']
          from rfl]
    have hno1 : '\n' ∉ '`' :: '`' :: '`' ::
        (strOr e.language "typescript").data := by
      intro hm
      rcases List.mem_cons.mp hm with hm | hm
      · exact absurd hm (by decide)
      · rcases List.mem_cons.mp hm with hm | hm
        · exact absurd hm (by decide)
        · rcases List.mem_cons.mp hm with hm | hm
          · exact absurd hm (by decide)
          · exact hlg hm
    have hno2 : ('\n' : Char) ∉ ['`', '`', '`'] := by decide
    rw [hshape, headsCh_line hno1 (chPrefix_cons_ne (by decide) _),
      headsCh_text hcode,
      headsCh_line hno2 (chPrefix_cons_ne (by decide) _), headsCh_nl]

theorem headsCh_exText (e : RuleExample)
    (hadd : textClean e.additionalText) (rest : List Char) :
    headsCh ((if e.additionalText = "" then ""
      else e.additionalText ++ "\n\n").data ++ rest) = headsCh rest := by
  by_cases hb : e.additionalText = ""
  · rw [if_pos hb]
    rfl
  · rw [if_neg hb]
    have hshape : (e.additionalText ++ "\n\n").data ++ rest =
        e.additionalText.data ++ '\n' :: ('\n' :: rest) := by
      simp [String.data_append,
        show ("\n\n" : String).data = ['\n', '\n'] from rfl]
    rw [hshape, headsCh_text hadd, headsCh_nl]

theorem headsCh_example (e : RuleExample) (hc : cleanExample e)
    (rest : List Char) :
    headsCh ((exampleMd e).data ++ rest) = headsCh rest := by
  obtain ⟨hl, hd, hlang, hcode, hadd⟩ := hc
  have hsplit : (exampleMd e).data ++ rest =
      ((if e.description = "" then "**" ++ e.label ++ ":**\n\n"
        else "**" ++ e.label ++ " (" ++ e.description ++
          "):**\n\n").data ++
       ((if strBlank e.code then ""
        else "```" ++ strOr e.language "typescript" ++ "\n" ++ e.code ++
          "\n```\n\n").data ++
       ((if e.additionalText = "" then ""
        else e.additionalText ++ "\n\n").data ++ rest))) := by
    simp [exampleMd, String.data_append, List.append_assoc]
  rw [hsplit, headsCh_exLabel e hl hd, headsCh_exCode e hlang hcode,
    headsCh_exText e hadd]

theorem headsCh_examples : ∀ (es : List RuleExample),
    (∀ e ∈ es, cleanExample e) → ∀ (rest : List Char),
    headsCh ((strConcat (es.map exampleMd)).data ++ rest) = headsCh rest := by
  intro es
  induction es with
  | nil => intro _ rest; rfl
  | cons e es ih =>
    intro h rest
    rw [List.map_cons, strConcat_cons_data, List.append_assoc,
      headsCh_example e (h e (List.mem_cons_self e es))]
    exact ih (fun x hx => h x (List.mem_cons_of_mem e hx)) rest

theorem headsCh_impactLine (im impd : String) (him : '\n' ∉ im.data)
    (himpd : '\n' ∉ impd.data) (rest : List Char) :
    headsCh (("**Impact: " ++ im ++
      (if impd = "" then "" else " (" ++ impd ++ ")") ++
      "**\n\n").data ++ rest) = headsCh rest := by
  by_cases hb : impd = ""
  · rw [if_pos hb]
    have hshape : ("**Impact: " ++ im ++ "" ++ "**\n\n").data ++ rest =
        ("**Impact: ".data ++ (im.data ++ ['*', '*'])) ++
          '\n' :: ('\n' :: rest) := by
      simp [String.data_append,
        show ("**\n\n" : String).data = ['*', '*', '\n', '\n'] from rfl,
        show ("" : String).data = [] from rfl]
    rw [hshape, headsCh_line ?_ ?_, headsCh_nl]
    · intro hm
      rcases List.mem_append.mp hm with hm | hm
      · exact absurd hm (by decide)
      · rcases List.mem_append.mp hm with hm | hm
        · exact him hm
        · exact absurd hm (by decide)
    · exact chPrefix_head_not_hash (by decide) (by decide)
  · rw [if_neg hb]
    have hshape : ("**Impact: " ++ im ++ (" (" ++ impd ++ ")") ++
        "**\n\n").data ++ rest =
        ("**Impact: ".data ++ (im.data ++ ' ' :: '(' ::
          (impd.data ++ [')', '*', '*']))) ++ '\n' :: ('\n' :: rest) := by
      simp [String.data_append,
        show ("**\n\n" : String).data = ['*', '*', '\n', '\n'] from rfl,
        show (" (" : String).data = [' ', '('] from rfl,
        show (")" : String).data = [')'] from rfl]
    rw [hshape, headsCh_line ?_ ?_, headsCh_nl]
    · intro hm
      rcases List.mem_append.mp hm with hm | hm
      · exact absurd hm (by decide)
      · rcases List.mem_append.mp hm with hm | hm
        · exact him hm
        · rcases List.mem_cons.mp hm with hm | hm
          · exact absurd hm (by decide)
          · rcases List.mem_cons.mp hm with hm | hm
            · exact absurd hm (by decide)
            · rcases List.mem_append.mp hm with hm | hm
              · exact himpd hm
              · exact absurd hm (by decide)
    · exact chPrefix_head_not_hash (by decide) (by decide)

theorem headsCh_refLine (refs : List String)
    (h : ∀ ref ∈ refs, '\n' ∉ ref.data) (rest : List Char) :
    headsCh ((if refs.length = 0 then ""
      else "Reference: " ++ joinSep ", "
        (refs.map (fun ref => "[" ++ ref ++ "](" ++ ref ++ ")")) ++
        "\n\n").data ++ rest) = headsCh rest := by
  by_cases hb : refs.length = 0
  · rw [if_pos hb]
    rfl
  · rw [if_neg hb]
    have hj : '\n' ∉ (joinSep ", "
        (refs.map (fun ref => "[" ++ ref ++ "](" ++ ref ++ ")"))).data := by
      refine joinSep_no_nl (by decide) ?_
      intro x hx
      obtain ⟨ref, hr, he⟩ := List.mem_map.mp hx
      rw [← he]
      simp only [String.data_append]
      intro hm
      rcases List.mem_append.mp hm with hm | hm
      · rcases List.mem_append.mp hm with hm | hm
        · rcases List.mem_append.mp hm with hm | hm
          · rcases List.mem_append.mp hm with hm | hm
            · exact absurd hm (by decide)
            · exact h ref hr hm
          · exact absurd hm (by decide)
        · exact h ref hr hm
      · exact absurd hm (by decide)
    have hshape : ("Reference: " ++ joinSep ", "
        (refs.map (fun ref => "[" ++ ref ++ "](" ++ ref ++ ")")) ++
        "\n\n").data ++ rest =
        ("Reference: ".data ++ (joinSep ", "
          (refs.map (fun ref => "[" ++ ref ++ "](" ++ ref ++ ")"))).data) ++
          '\n' :: ('\n' :: rest) := by
      simp [String.data_append,
        show ("\n\n" : String).data = ['\n', '\n'] from rfl]
    rw [hshape, headsCh_line ?_ ?_, headsCh_nl]
    · intro hm
      rcases List.mem_append.mp hm with hm | hm
      · exact absurd hm (by decide)
      · exact hj hm
    · exact chPrefix_head_not_hash (by decide) (by decide)

theorem headsCh_rule (r : Rule) (hc : cleanRule r)
    (hid : ∃ n k, r.id = some (encodeId n k)) (rest : List Char) :
    headsCh ((ruleMd r).data ++ rest) =
      (jsShow r.id, r.title) :: headsCh rest := by
  obtain ⟨ht, him, himpd, hexp, href, hexs⟩ := hc
  obtain ⟨n, k, hid⟩ := hid
  have hidstr : jsShow r.id = encodeId n k := by
    rw [hid]
    rfl
  have hsp : ' ' ∉ (jsShow r.id).data := by
    rw [hidstr]
    exact encodeId_no_space n k
  have hni : '\n' ∉ (jsShow r.id).data := by
    rw [hidstr]
    exact encodeId_no_nl n k
  have hshape : (ruleMd r).data ++ rest =
      ('#' :: '#' :: '#' :: ' ' ::
        ((jsShow r.id).data ++ ' ' :: r.title.data)) ++ '\n' :: ('\n' ::
      (("**Impact: " ++ r.impact ++
        (if r.impactDescription = "" then ""
         else " (" ++ r.impactDescription ++ ")") ++ "**\n\n").data ++
      (r.explanation.data ++ '\n' :: ('\n' ::
      ((strConcat (r.examples.map exampleMd)).data ++
      ((if r.references.length = 0 then ""
        else "Reference: " ++ joinSep ", "
          (r.references.map (fun ref => "[" ++ ref ++ "](" ++ ref ++ ")"))
          ++ "\n\n").data ++ rest)))))) := by
    simp [ruleMd, String.data_append, List.append_assoc,
      show ("### " : String).data = ['#', '#', '#', ' '] from rfl,
      show (" " : String).data = [' '] from rfl,
      show ("\n\n" : String).data = ['\n', '\n'] from rfl]
  rw [hshape, headsCh_heading (jsShow r.id) r.title hsp hni ht,
    headsCh_nl, headsCh_impactLine r.impact r.impactDescription him himpd,
    headsCh_text hexp, headsCh_nl, headsCh_examples _ hexs,
    headsCh_refLine r.references href]

theorem headsCh_rules : ∀ (rs : List Rule),
    (∀ r ∈ rs, cleanRule r) →
    (∀ r ∈ rs, ∃ n k, r.id = some (encodeId n k)) →
    ∀ (rest : List Char),
    headsCh ((strConcat (rs.map ruleMd)).data ++ rest) =
      rs.map (fun r => (jsShow r.id, r.title)) ++ headsCh rest := by
  intro rs
  induction rs with
  | nil => intro _ _ rest; rfl
  | cons r rs ih =>
    intro hc hid rest
    rw [List.map_cons, strConcat_cons_data, List.append_assoc,
      headsCh_rule r (hc r (List.mem_cons_self r rs))
        (hid r (List.mem_cons_self r rs)),
      ih (fun x hx => hc x (List.mem_cons_of_mem r hx))
        (fun x hx => hid x (List.mem_cons_of_mem r hx)) rest]
    rfl

theorem headsCh_secIntro (s : Section) (hin : textClean s.introduction)
    (rest : List Char) :
    headsCh ((if s.introduction = "" then ""
      else s.introduction ++ "\n\n").data ++ rest) = headsCh rest := by
  by_cases hb : s.introduction = ""
  · rw [if_pos hb]
    rfl
  · rw [if_neg hb]
    have hshape : (s.introduction ++ "\n\n").data ++ rest =
        s.introduction.data ++ '\n' :: ('\n' :: rest) := by
      simp [String.data_append,
        show ("\n\n" : String).data = ['\n', '\n'] from rfl]
    rw [hshape, headsCh_text hin, headsCh_nl]

theorem headsCh_section (s : Section) (hc : cleanSection s)
    (hid : ∀ r ∈ s.rules, ∃ n k, r.id = some (encodeId n k))
    (rest : List Char) :
    headsCh ((sectionMd s).data ++ rest) =
      s.rules.map (fun r => (jsShow r.id, r.title)) ++ headsCh rest := by
  obtain ⟨ht, him, hin, hr⟩ := hc
  have hshape : (sectionMd s).data ++ rest =
      ('#' :: '#' :: ' ' ::
        ((Nat.repr s.number).data ++ '.' :: ' ' :: s.title.data)) ++
        '\n' :: ('\n' ::
      (("**Impact: ".data ++ (s.impact.data ++ ['*', '*'])) ++
        '\n' :: ('\n' ::
      ((if s.introduction = "" then ""
        else s.introduction ++ "\n\n").data ++
      ((strConcat (s.rules.map ruleMd)).data ++
      ((['-', '-', '-'] : List Char) ++ '\n' :: ('\n' :: rest))))))) := by
    simp [sectionMd, String.data_append, List.append_assoc,
      show ("## " : String).data = ['#', '#', ' '] from rfl,
      show (". " : String).data = ['.', ' '] from rfl,
      show ("\n\n" : String).data = ['\n', '\n'] from rfl,
      show ("**\n\n" : String).data = ['*', '*', '\n', '\n'] from rfl,
      show ("---\n\n" : String).data = ['-', '-', '-', '\n', '\n'] from rfl]
  have hno1 : '\n' ∉ '#' :: '#' :: ' ' ::
      ((Nat.repr s.number).data ++ '.' :: ' ' :: s.title.data) := by
    intro hm
    rcases List.mem_cons.mp hm with hm | hm
    · exact absurd hm (by decide)
    · rcases List.mem_cons.mp hm with hm | hm
      · exact absurd hm (by decide)
      · rcases List.mem_cons.mp hm with hm | hm
        · exact absurd hm (by decide)
        · rcases List.mem_append.mp hm with hm | hm
          · exact repr_no_nl s.number hm
          · rcases List.mem_cons.mp hm with hm | hm
            · exact absurd hm (by decide)
            · rcases List.mem_cons.mp hm with hm | hm
              · exact absurd hm (by decide)
              · exact ht hm
  have hno2 : '\n' ∉ "**Impact: ".data ++ (s.impact.data ++ ['*', '*']) := by
    intro hm
    rcases List.mem_append.mp hm with hm | hm
    · exact absurd hm (by decide)
    · rcases List.mem_append.mp hm with hm | hm
      · exact him hm
      · exact absurd hm (by decide)
  rw [hshape, headsCh_line hno1 (chPrefix_cons3_ne (by decide) _),
    headsCh_nl,
    headsCh_line hno2 (chPrefix_head_not_hash (by decide) (by decide)),
    headsCh_nl, headsCh_secIntro s hin, headsCh_rules s.rules hr hid,
    headsCh_line (show ('\n' : Char) ∉ ['-', '-', '-'] from by decide)
      (chPrefix_cons_ne (by decide) _),
    headsCh_nl]

theorem headsCh_sections : ∀ (ss : List Section),
    (∀ s ∈ ss, cleanSection s) →
    (∀ s ∈ ss, ∀ r ∈ s.rules, ∃ n k, r.id = some (encodeId n k)) →
    ∀ (rest : List Char),
    headsCh ((strConcat (ss.map sectionMd)).data ++ rest) =
      headingPairs ss ++ headsCh rest := by
  intro ss
  induction ss with
  | nil => intro _ _ rest; rfl
  | cons s ss ih =>
    intro hc hid rest
    rw [List.map_cons, strConcat_cons_data, List.append_assoc,
      headsCh_section s (hc s (List.mem_cons_self s ss))
        (hid s (List.mem_cons_self s ss)),
      ih (fun x hx => hc x (List.mem_cons_of_mem s hx))
        (fun x hx => hid x (List.mem_cons_of_mem s hx)) rest]
    unfold headingPairs
    simp [List.append_assoc]

theorem repr_ne_nil (n : Nat) : (Nat.repr n).data ≠ [] := by
  show Nat.toDigitsCore 10 (n + 1) n [] ≠ []
  simp only [Nat.toDigitsCore]
  by_cases h : n / 10 = 0
  · simp [h]
  · rw [if_neg h, toDigitsCore_acc]
    simp

theorem headsCh_tocRules : ∀ (rs : List Rule),
    (∀ r ∈ rs, '\n' ∉ r.title.data) →
    (∀ r ∈ rs, ∃ n k, r.id = some (encodeId n k)) →
    ∀ (rest : List Char),
    headsCh ((strConcat (rs.map (fun r =>
      "   - " ++ jsShow r.id ++ " [" ++ r.title ++ "](#" ++ ruleAnchor r ++
        ")\n"))).data ++ rest) = headsCh rest := by
  intro rs
  induction rs with
  | nil => intro _ _ rest; rfl
  | cons r rs ih =>
    intro ht hid rest
    obtain ⟨n, k, hidr⟩ := hid r (List.mem_cons_self r rs)
    have hni : '\n' ∉ (jsShow r.id).data := by
      rw [show jsShow r.id = encodeId n k from by rw [hidr]; rfl]
      exact encodeId_no_nl n k
    rw [List.map_cons, strConcat_cons_data, List.append_assoc]
    have hshape : ("   - " ++ jsShow r.id ++ " [" ++ r.title ++ "](#" ++
        ruleAnchor r ++ ")\n").data ++
        ((strConcat (rs.map (fun r =>
          "   - " ++ jsShow r.id ++ " [" ++ r.title ++ "](#" ++
            ruleAnchor r ++ ")\n"))).data ++ rest) =
        ("   - ".data ++ ((jsShow r.id).data ++ (" [".data ++
          (r.title.data ++ ("](#".data ++ ((ruleAnchor r).data ++
            [')'])))))) ++ '\n' ::
        ((strConcat (rs.map (fun r =>
          "   - " ++ jsShow r.id ++ " [" ++ r.title ++ "](#" ++
            ruleAnchor r ++ ")\n"))).data ++ rest) := by
      simp [String.data_append, List.append_assoc,
        show (")\n" : String).data = [')', '\n'] from rfl]
    have hno : '\n' ∉ "   - ".data ++ ((jsShow r.id).data ++ (" [".data ++
        (r.title.data ++ ("](#".data ++ ((ruleAnchor r).data ++
          [')']))))) := by
      intro hm
      rcases List.mem_append.mp hm with hm | hm
      · exact absurd hm (by decide)
      · rcases List.mem_append.mp hm with hm | hm
        · exact hni hm
        · rcases List.mem_append.mp hm with hm | hm
          · exact absurd hm (by decide)
          · rcases List.mem_append.mp hm with hm | hm
            · exact ht r (List.mem_cons_self r rs) hm
            · rcases List.mem_append.mp hm with hm | hm
              · exact absurd hm (by decide)
              · rcases List.mem_append.mp hm with hm | hm
                · exact ruleAnchor_no_nl r hm
                · exact absurd hm (by decide)
    rw [hshape,
      headsCh_line hno (chPrefix_head_not_hash (by decide) (by decide))]
    exact ih (fun x hx => ht x (List.mem_cons_of_mem r hx))
      (fun x hx => hid x (List.mem_cons_of_mem r hx)) rest

theorem headsCh_tocSection (s : Section) (ht : '\n' ∉ s.title.data)
    (him : '\n' ∉ s.impact.data)
    (hrt : ∀ r ∈ s.rules, '\n' ∉ r.title.data)
    (hid : ∀ r ∈ s.rules, ∃ n k, r.id = some (encodeId n k))
    (rest : List Char) :
    headsCh ((tocSectionMd s).data ++ rest) = headsCh rest := by
  have hshape : (tocSectionMd s).data ++ rest =
      ((Nat.repr s.number).data ++ (". [".data ++ (s.title.data ++
        ("](#".data ++ ((sectionAnchor s).data ++ (") — **".data ++
          (s.impact.data ++ ['*', '*']))))))) ++ '\n' ::
      ((strConcat (s.rules.map (fun r =>
        "   - " ++ jsShow r.id ++ " [" ++ r.title ++ "](#" ++
          ruleAnchor r ++ ")\n"))).data ++ rest) := by
    simp [tocSectionMd, String.data_append, List.append_assoc,
      show ("**\n" : String).data = ['*', '*', '\n'] from rfl]
  have hno : '\n' ∉ (Nat.repr s.number).data ++ (". [".data ++
      (s.title.data ++ ("](#".data ++ ((sectionAnchor s).data ++
        (") — **".data ++ (s.impact.data ++ ['*', '*'])))))) := by
    intro hm
    rcases List.mem_append.mp hm with hm | hm
    · exact repr_no_nl s.number hm
    · rcases List.mem_append.mp hm with hm | hm
      · exact absurd hm (by decide)
      · rcases List.mem_append.mp hm with hm | hm
        · exact ht hm
        · rcases List.mem_append.mp hm with hm | hm
          · exact absurd hm (by decide)
          · rcases List.mem_append.mp hm with hm | hm
            · exact sectionAnchor_no_nl s hm
            · rcases List.mem_append.mp hm with hm | hm
              · exact absurd hm (by decide)
              · rcases List.mem_append.mp hm with hm | hm
                · exact him hm
                · exact absurd hm (by decide)
  rw [hshape, headsCh_line hno
    (chPrefix_head_not_hash (repr_ne_nil s.number) (repr_no_hash s.number))]
  exact headsCh_tocRules s.rules hrt hid rest

theorem headsCh_tocs : ∀ (ss : List Section),
    (∀ s ∈ ss, cleanSection s) →
    (∀ s ∈ ss, ∀ r ∈ s.rules, ∃ n k, r.id = some (encodeId n k)) →
    ∀ (rest : List Char),
    headsCh ((strConcat (ss.map tocSectionMd)).data ++ rest) =
      headsCh rest := by
  intro ss
  induction ss with
  | nil => intro _ _ rest; rfl
  | cons s ss ih =>
    intro hc hid rest
    obtain ⟨ht, him, -, hr⟩ := hc s (List.mem_cons_self s ss)
    rw [List.map_cons, strConcat_cons_data, List.append_assoc,
      headsCh_tocSection s ht him
        (fun r hrr => (hr r hrr).1)
        (hid s (List.mem_cons_self s ss))]
    exact ih (fun x hx => hc x (List.mem_cons_of_mem s hx))
      (fun x hx => hid x (List.mem_cons_of_mem s hx)) rest

theorem chPrefix_cons2_ne {c : Char} (h : ¬ c = '#') (rest : List Char) :
    chPrefix "### ".data ('#' :: c :: rest) = false := by
  have h2 : ¬ ('#' : Char) = c := fun he => h (Eq.symm he)
  simp [chPrefix, show "### ".data = ['#', '#', '#', ' '] from rfl,
    List.isPrefixOf, h2]

set_option maxRecDepth 8000 in
theorem headsCh_header (m : DocMeta) (hm : cleanDocMeta m)
    (rest : List Char) :
    headsCh ((headerMd m).data ++ rest) = headsCh rest := by
  obtain ⟨hver, hav, ⟨horg, horg3⟩, ⟨hdate, hdate3⟩, habs, -⟩ := hm
  have hshape : (headerMd m).data ++ rest =
      ('#' :: ' ' :: ("Angular Best Practices (".data ++
        (m.angularVersion.data ++ [')']))) ++ '\n' :: ('\n' ::
      (("**Version ".data ++ (m.version.data ++ ['*', '*', ' ', ' '])) ++
        '\n' ::
      ((m.organization.data ++ [' ', ' ']) ++ '\n' ::
      (m.date.data ++ '\n' :: ('\n' ::
      ("> **Note:**  ".data ++ '\n' ::
      (("> This document is for AI agents and LLMs to follow when maintaining,  " : String).data ++ '\n' ::
      ((("> generating, or refactoring Angular codebases. Optimized for " : String).data ++
          (m.angularVersion.data ++ ['.'])) ++
        '\n' :: ('\n' ::
      ((['-', '-', '-'] : List Char) ++ '\n' :: ('\n' ::
      ("## Abstract".data ++ '\n' :: ('\n' ::
      (m.abstract.data ++ '\n' :: ('\n' ::
      ((['-', '-', '-'] : List Char) ++ '\n' :: ('\n' ::
      ("## Table of Contents".data ++
        '\n' :: ('\n' :: rest))))))))))))))))))) := by
    simp [headerMd, String.data_append, List.append_assoc,
      show ("# Angular Best Practices (" : String).data =
        '#' :: ' ' :: "Angular Best Practices (".data from rfl,
      show (")\n\n" : String).data = [')', '\n', '\n'] from rfl,
      show ("**  \n" : String).data = ['*', '*', ' ', ' ', '\n'] from rfl,
      show ("  \n" : String).data = [' ', ' ', '\n'] from rfl,
      show ("\n\n" : String).data = ['\n', '\n'] from rfl,
      show ("> **Note:**  \n" : String).data =
        "> **Note:**  ".data ++ ['\n'] from rfl,
      show ("> This document is for AI agents and LLMs to follow when maintaining,  \n" : String).data = ("> This document is for AI agents and LLMs to follow when maintaining,  " : String).data ++ ['\n'] from rfl,
      show (".\n\n" : String).data = ['.', '\n', '\n'] from rfl,
      show ("---\n\n" : String).data = ['-', '-', '-', '\n', '\n'] from rfl,
      show ("## Abstract\n\n" : String).data =
        "## Abstract".data ++ ['\n', '\n'] from rfl,
      show ("## Table of Contents\n\n" : String).data =
        "## Table of Contents".data ++ ['\n', '\n'] from rfl]
  have hno1 : '\n' ∉ '#' :: ' ' :: ("Angular Best Practices (".data ++
      (m.angularVersion.data ++ [')'])) := by
    intro hmm
    rcases List.mem_cons.mp hmm with hmm | hmm
    · exact absurd hmm (by decide)
    · rcases List.mem_cons.mp hmm with hmm | hmm
      · exact absurd hmm (by decide)
      · rcases List.mem_append.mp hmm with hmm | hmm
        · exact absurd hmm (by decide)
        · rcases List.mem_append.mp hmm with hmm | hmm
          · exact hav hmm
          · exact absurd hmm (by decide)
  have hno3 : '\n' ∉ "**Version ".data ++
      (m.version.data ++ ['*', '*', ' ', ' ']) := by
    intro hmm
    rcases List.mem_append.mp hmm with hmm | hmm
    · exact absurd hmm (by decide)
    · rcases List.mem_append.mp hmm with hmm | hmm
      · exact hver hmm
      · exact absurd hmm (by decide)
  have hno4 : '\n' ∉ m.organization.data ++ [' ', ' '] := by
    intro hmm
    rcases List.mem_append.mp hmm with hmm | hmm
    · exact horg hmm
    · exact absurd hmm (by decide)
  have hno9 : '\n' ∉
      (("> generating, or refactoring Angular codebases. Optimized for " : String).data ++
        (m.angularVersion.data ++ ['.'])) := by
    intro hmm
    rcases List.mem_append.mp hmm with hmm | hmm
    · exact absurd hmm (by decide)
    · rcases List.mem_append.mp hmm with hmm | hmm
      · exact hav hmm
      · exact absurd hmm (by decide)
  rw [hshape,
    headsCh_line hno1 (chPrefix_cons2_ne (by decide) _), headsCh_nl,
    headsCh_line hno3 (chPrefix_head_not_hash (by decide) (by decide)),
    headsCh_line hno4 (chPrefix_append_spaces horg3),
    headsCh_line hdate (hash4_of_hash3 hdate3), headsCh_nl,
    headsCh_line (by decide) (by decide),
    headsCh_line (by decide) (by decide),
    headsCh_line hno9 (chPrefix_head_not_hash (by decide) (by decide)),
    headsCh_nl,
    headsCh_line (show ('\n' : Char) ∉ ['-', '-', '-'] from by decide)
      (chPrefix_cons_ne (by decide) _),
    headsCh_nl,
    headsCh_line (by decide) (by decide), headsCh_nl,
    headsCh_text habs, headsCh_nl,
    headsCh_line (show ('\n' : Char) ∉ ['-', '-', '-'] from by decide)
      (chPrefix_cons_ne (by decide) _),
    headsCh_nl,
    headsCh_line (by decide) (by decide), headsCh_nl]

theorem headsCh_numRefs : ∀ (refs : List String) (i : Nat),
    (∀ ref ∈ refs, '\n' ∉ ref.data) → ∀ (rest : List Char),
    headsCh ((numberedRefs i refs).data ++ rest) = headsCh rest := by
  intro refs
  induction refs with
  | nil => intro _ _ rest; rfl
  | cons ref rs ih =>
    intro i h rest
    have hshape : (numberedRefs i (ref :: rs)).data ++ rest =
        ((Nat.repr (i + 1)).data ++ (". [".data ++ (ref.data ++
          ("](".data ++ (ref.data ++ [')']))))) ++ '\n' ::
        ((numberedRefs (i + 1) rs).data ++ rest) := by
      simp [numberedRefs, String.data_append, List.append_assoc,
        show (")\n" : String).data = [')', '\n'] from rfl]
    have hno : '\n' ∉ (Nat.repr (i + 1)).data ++ (". [".data ++ (ref.data ++
        ("](".data ++ (ref.data ++ [')'])))) := by
      intro hm
      rcases List.mem_append.mp hm with hm | hm
      · exact repr_no_nl (i + 1) hm
      · rcases List.mem_append.mp hm with hm | hm
        · exact absurd hm (by decide)
        · rcases List.mem_append.mp hm with hm | hm
          · exact h ref (List.mem_cons_self ref rs) hm
          · rcases List.mem_append.mp hm with hm | hm
            · exact absurd hm (by decide)
            · rcases List.mem_append.mp hm with hm | hm
              · exact h ref (List.mem_cons_self ref rs) hm
              · exact absurd hm (by decide)
    rw [hshape, headsCh_line hno
      (chPrefix_head_not_hash (repr_ne_nil (i + 1)) (repr_no_hash (i + 1)))]
    exact ih (i + 1) (fun x hx => h x (List.mem_cons_of_mem ref hx)) rest

theorem headsCh_footer (m : DocMeta)
    (href : ∀ ref ∈ m.references, '\n' ∉ ref.data) (rest : List Char) :
    headsCh ((if m.references.length = 0 then ""
      else "## References\n\n" ++ numberedRefs 0 m.references).data ++
      rest) = headsCh rest := by
  by_cases hb : m.references.length = 0
  · rw [if_pos hb]
    rfl
  · rw [if_neg hb]
    have hshape : ("## References\n\n" ++
        numberedRefs 0 m.references).data ++ rest =
        "## References".data ++ '\n' :: ('\n' ::
          ((numberedRefs 0 m.references).data ++ rest)) := by
      simp [String.data_append, List.append_assoc,
        show ("## References\n\n" : String).data =
          "## References".data ++ ['\n', '\n'] from rfl]
    rw [hshape, headsCh_line (by decide) (by decide), headsCh_nl]
    exact headsCh_numRefs m.references 0 href rest

/-- Rendering an assembled section list and re-extracting the rule-heading
lines recovers exactly the carried (id, title) pairs, provided no text
field fakes a heading line. -/
theorem extractHeadings_generateMarkdown (sections : List Section)
    (m : DocMeta) (hm : cleanDocMeta m)
    (hs : ∀ s ∈ sections, cleanSection s)
    (hid : ∀ s ∈ sections, ∀ r ∈ s.rules,
      ∃ n k, r.id = some (encodeId n k)) :
    extractHeadings (generateMarkdown sections m) =
      headingPairs sections := by
  show headsCh (generateMarkdown sections m).data = headingPairs sections
  have hrefs : ∀ ref ∈ m.references, '\n' ∉ ref.data :=
    hm.2.2.2.2.2
  have hshape : (generateMarkdown sections m).data =
      (headerMd m).data ++ ((strConcat (sections.map tocSectionMd)).data ++
      ('\n' :: ((['-', '-', '-'] : List Char) ++ '\n' :: ('\n' ::
      ((strConcat (sections.map sectionMd)).data ++
      ((if m.references.length = 0 then ""
        else "## References\n\n" ++
          numberedRefs 0 m.references).data ++ [])))))) := by
    simp [generateMarkdown, String.data_append, List.append_assoc,
      show ("\n---\n\n" : String).data = ['\n', '-', '-', '-', '\n', '\n']
        from rfl]
  rw [hshape, headsCh_header m hm, headsCh_tocs sections hs hid,
    headsCh_nl,
    headsCh_line (show ('\n' : Char) ∉ ['-', '-', '-'] from by decide)
      (chPrefix_cons_ne (by decide) _),
    headsCh_nl, headsCh_sections sections hs hid,
    headsCh_footer m hrefs, headsCh_nil, List.append_nil]

/-- Every rule of an assembled document carries a dotted assembly id. -/
theorem buildSections_id_shape (rules : List RuleFile)
    (meta : List (Nat × SectionMeta)) :
    ∀ s ∈ buildSections rules meta, ∀ r ∈ s.rules,
      ∃ n k, r.id = some (encodeId n k) := by
  intro s hs r hr
  have hmap := (buildSections_section_facts rules meta s hs).2.2.2.1
  have hmem : r.id ∈ s.rules.map (fun r => r.id) :=
    List.mem_map_of_mem (fun r => r.id) hr
  rw [hmap] at hmem
  obtain ⟨j, _, hj⟩ := List.mem_map.mp hmem
  exact ⟨s.number, j + 1, hj.symm⟩

/-- The rendered (string) ids of an assembled document are distinct. -/
theorem buildSections_jsShow_ids_nodup (rules : List RuleFile)
    (meta : List (Nat × SectionMeta)) :
    ((buildSections rules meta).flatMap
      (fun s => s.rules.map (fun r => jsShow r.id))).Nodup := by
  have hshape := buildSections_id_shape rules meta
  have heq : (buildSections rules meta).flatMap
      (fun s => s.rules.map (fun r => jsShow r.id)) =
      ((buildSections rules meta).flatMap
        (fun s => s.rules.map (fun r => r.id))).map jsShow := by
    rw [List.map_flatMap]
    congr 1
    funext s
    rw [List.map_map]
    rfl
  rw [heq]
  refine List.Nodup.map_on ?_ (buildSections_ids_nodup rules meta)
  intro x hx y hy hxy
  obtain ⟨s, hsmem, hx2⟩ := List.mem_flatMap.mp hx
  obtain ⟨t, htmem, hy2⟩ := List.mem_flatMap.mp hy
  obtain ⟨rx, hrx, hx3⟩ := List.mem_map.mp hx2
  obtain ⟨ry, hry, hy3⟩ := List.mem_map.mp hy2
  obtain ⟨a, b, hab⟩ := hshape s hsmem rx hrx
  obtain ⟨c, d, hcd⟩ := hshape t htmem ry hry
  rw [← hx3, ← hy3, hab, hcd]
  rw [← hx3, hab] at hxy
  rw [← hy3, hcd] at hxy
  have : encodeId a b = encodeId c d := by
    have h1 : jsShow (some (encodeId a b)) = encodeId a b := rfl
    have h2 : jsShow (some (encodeId c d)) = encodeId c d := rfl
    rw [h1, h2] at hxy
    exact hxy
  rw [this]

set_option maxRecDepth 40000 in
/-- C7 counterexample: a rule whose explanation contains the line
`### 9.9 Bogus` makes the re-extraction pick up a second, fake heading, so
the round-trip does not recover the assembled (id → title) assignment. -/
theorem render_roundtrip_counterexample :
    extractHeadings (generateMarkdown
      (buildSections [⟨1,
        { title := "T", impact := "HIGH", impactDescription := "",
          explanation := "### 9.9 Bogus", examples := [],
          references := [] }⟩] [])
      ⟨"1", "O", "D", "A", "V", []⟩) =
      [("1.1", "T"), ("9.9", "Bogus")] ∧
    headingPairs (buildSections [⟨1,
      { title := "T", impact := "HIGH", impactDescription := "",
        explanation := "### 9.9 Bogus", examples := [],
        references := [] }⟩] []) = [("1.1", "T")] := by
  refine ⟨by decide, by decide⟩

/-- C7 (amended): rendering an assembled section list with the
`DocumentRenderer` and re-extracting the rule-heading lines recovers the
original (id → title) assignment exactly, with no id collisions — provided
no rendered text field itself contains a line that looks like a rule
heading (and inline fields are single-line), which the counterexample
shows is necessary. -/
theorem render_roundtrip_amended (rules : List RuleFile)
    (meta : List (Nat × SectionMeta)) (m : DocMeta)
    (hm : cleanDocMeta m)
    (hs : ∀ s ∈ buildSections rules meta, cleanSection s) :
    extractHeadings (generateMarkdown (buildSections rules meta) m) =
      headingPairs (buildSections rules meta) ∧
    ((buildSections rules meta).flatMap
      (fun s => s.rules.map (fun r => jsShow r.id))).Nodup :=
  ⟨extractHeadings_generateMarkdown (buildSections rules meta) m hm hs
    (buildSections_id_shape rules meta),
   buildSections_jsShow_ids_nodup rules meta⟩

set_option maxRecDepth 40000 in
/-- Witness for the amended C7 at a concrete clean corpus. -/
theorem render_roundtrip_witness :
    extractHeadings (generateMarkdown
      (buildSections [⟨1,
        { title := "T", impact := "HIGH", impactDescription := "",
          explanation := "E", examples := [], references := [] }⟩] [])
      ⟨"1", "O", "D", "A", "V", []⟩) =
      headingPairs (buildSections [⟨1,
        { title := "T", impact := "HIGH", impactDescription := "",
          explanation := "E", examples := [], references := [] }⟩] []) :=
  (render_roundtrip_amended
    [⟨1, { title := "T", impact := "HIGH", impactDescription := "",
           explanation := "E", examples := [], references := [] }⟩]
    [] ⟨"1", "O", "D", "A", "V", []⟩
    (by decide) (by decide)).1
